import Mathlib

/-!
Memory latency measurement: sweep driver and sequential measurement

A shallow embedding of `memory_latency.cpp`:

* `nanosectime`, `measure_sequential_latency` and `main` are translated
  statement by statement;
* `uint64_t` values are natural numbers reduced modulo `2 ^ 64` wherever the
  C arithmetic can wrap;
* `double` values are IEEE-754 binary64 numbers (`F64`), with the
  operations the program uses (conversion from `uint64_t`, `*`, `-`, `/`,
  `<=`, conversion to `uint64_t`) rounded to nearest, ties to even;
* the clock, the allocator and the random-mode measurement `measure_latency`
  (declared in `measure.h`) are supplied by an environment.
-/

set_option linter.constructorNameAsVariable false

namespace MemoryLatency

/-! ## IEEE-754 binary64 -/

/-- Values of the C type `double`: a finite value `(-1)^sign * m * 2^e`, an
infinity, or a NaN. -/
inductive F64 where
  | fin (sign : Bool) (m : Nat) (e : Int)
  | inf (sign : Bool)
  | nan
  deriving DecidableEq, Repr

/-- Number of halvings that bring `n` to zero, with a bound on the recursion. -/
def bitLengthAux : Nat → Nat → Nat
  | 0, _ => 0
  | fuel + 1, n => if n = 0 then 0 else bitLengthAux fuel (n / 2) + 1

/-- Number of significant bits of a natural number. -/
def bitLength (n : Nat) : Nat := bitLengthAux n n

/-- The quotient `M / 2 ^ k` rounded to the nearest integer, ties to even. -/
def roundShift (M k : Nat) : Nat :=
  if 2 * (M % 2 ^ k) < 2 ^ k then M / 2 ^ k
  else if 2 ^ k < 2 * (M % 2 ^ k) then M / 2 ^ k + 1
  else if (M / 2 ^ k) % 2 = 0 then M / 2 ^ k else M / 2 ^ k + 1

/-- Number of low bits of `M` that do not fit a binary64 significand when the
exact value is `M * 2 ^ E` (53 bits of precision, least exponent `-1074`). -/
def dropBits (M : Nat) (E : Int) : Nat := max (bitLength M - 53) (Int.toNat (-1074 - E))

/-- Rounding of the exact value `(-1)^sign * M * 2^E` to binary64 (round to
nearest, ties to even; overflow gives an infinity). -/
def F64.round (sign : Bool) (M : Nat) (E : Int) : F64 :=
  if 1024 < (bitLength (roundShift M (dropBits M E)) : Int) + (E + dropBits M E) then F64.inf sign
  else F64.fin sign (roundShift M (dropBits M E)) (E + dropBits M E)

/-- Conversion `(double) n` of a `uint64_t`. -/
def F64.ofU64 (n : Nat) : F64 := F64.round false n 0

/-- The constant `1` converted to `double`. -/
def F64.one : F64 := F64.fin false 1 0

/-- Multiplication of doubles. -/
def F64.mul : F64 → F64 → F64
  | F64.nan, _ => F64.nan
  | _, F64.nan => F64.nan
  | F64.inf s1, F64.inf s2 => F64.inf (xor s1 s2)
  | F64.inf s1, F64.fin s2 m2 _ => if m2 = 0 then F64.nan else F64.inf (xor s1 s2)
  | F64.fin s1 m1 _, F64.inf s2 => if m1 = 0 then F64.nan else F64.inf (xor s1 s2)
  | F64.fin s1 m1 e1, F64.fin s2 m2 e2 => F64.round (xor s1 s2) (m1 * m2) (e1 + e2)

/-- Negation of a double. -/
def F64.neg : F64 → F64
  | F64.nan => F64.nan
  | F64.inf s => F64.inf (!s)
  | F64.fin s m e => F64.fin (!s) m e

/-- The integer `(-1)^sign * n`. -/
def signed (sign : Bool) (n : Nat) : Int := if sign then -(n : Int) else (n : Int)

/-- Addition of doubles. -/
def F64.add : F64 → F64 → F64
  | F64.nan, _ => F64.nan
  | _, F64.nan => F64.nan
  | F64.inf s1, F64.inf s2 => if s1 = s2 then F64.inf s1 else F64.nan
  | F64.inf s1, F64.fin _ _ _ => F64.inf s1
  | F64.fin _ _ _, F64.inf s2 => F64.inf s2
  | F64.fin s1 m1 e1, F64.fin s2 m2 e2 =>
    let e := min e1 e2
    let total := signed s1 (m1 * 2 ^ (e1 - e).toNat) + signed s2 (m2 * 2 ^ (e2 - e).toNat)
    if total = 0 then F64.fin (s1 && s2) 0 e
    else F64.round (decide (total < 0)) total.natAbs e

/-- Subtraction of doubles. -/
def F64.sub (a b : F64) : F64 := F64.add a (F64.neg b)

/-- Division of doubles. The quotient of the significands is computed with
more than 64 bits and a sticky bit for the remainder, then rounded once. -/
def F64.div : F64 → F64 → F64
  | F64.nan, _ => F64.nan
  | _, F64.nan => F64.nan
  | F64.inf _, F64.inf _ => F64.nan
  | F64.inf s1, F64.fin s2 _ _ => F64.inf (xor s1 s2)
  | F64.fin s1 _ _, F64.inf s2 => F64.fin (xor s1 s2) 0 0
  | F64.fin s1 m1 e1, F64.fin s2 m2 e2 =>
    if m2 = 0 then (if m1 = 0 then F64.nan else F64.inf (xor s1 s2))
    else
      let n := 64 + bitLength m2
      let q := (m1 * 2 ^ n) / m2
      let sticky := if (m1 * 2 ^ n) % m2 = 0 then 0 else 1
      F64.round (xor s1 s2) (2 * q + sticky) (e1 - e2 - n - 1)

/-- The comparison `a <= b` of doubles (false when an operand is a NaN). -/
def F64.le : F64 → F64 → Bool
  | F64.nan, _ => false
  | _, F64.nan => false
  | F64.inf s1, F64.inf s2 => s1 || !s2
  | F64.inf s1, F64.fin _ _ _ => s1
  | F64.fin _ _ _, F64.inf s2 => !s2
  | F64.fin s1 m1 e1, F64.fin s2 m2 e2 =>
    decide (signed s1 (m1 * 2 ^ (e1 - min e1 e2).toNat) ≤ signed s2 (m2 * 2 ^ (e2 - min e1 e2).toNat))

/-- Integral part of `m * 2 ^ e` (truncation). -/
def truncate (m : Nat) (e : Int) : Nat :=
  if 0 ≤ e then m * 2 ^ e.toNat else m / 2 ^ (-e).toNat

/-- Conversion `(uint64_t) x` of a double: the integral part of `x` when it
is in the range of `uint64_t`; `none` when it is not (the behaviour of the
conversion is then undefined in C). -/
def F64.toU64 : F64 → Option Nat
  | F64.fin sign m e =>
    if truncate m e = 0 then some 0
    else if sign then none
    else if truncate m e < 2 ^ 64 then some (truncate m e) else none
  | _ => none

/-- The rational number a finite double stands for. -/
def F64.toRat : F64 → Option ℚ
  | F64.fin sign m e => some ((if sign then -1 else 1) * (m : ℚ) * (2 : ℚ) ^ e)
  | _ => none

/-- A finite double with a 53-bit significand and exponent in the binary64
range. -/
def F64.isDouble : F64 → Prop
  | F64.fin _ m e => m < 2 ^ 53 ∧ -1074 ≤ e ∧ (bitLength m : Int) + e ≤ 1024
  | _ => True

instance F64.decidableIsDouble (x : F64) : Decidable (F64.isDouble x) := by
  cases x <;> unfold F64.isDouble <;> infer_instance

/-! ## The program -/

/-- The macro `GALOIS_POLYNOMIAL`. -/
def GALOIS_POLYNOMIAL : Nat := (1 <<< 63) ||| (1 <<< 62) ||| (1 <<< 60) ||| (1 <<< 59)

/-- The fields of `struct timespec`. -/
structure Timespec where
  tv_sec : Int
  tv_nsec : Int
  deriving DecidableEq, Repr

/-- The function `nanosectime`: `t.tv_sec*1000000000 + t.tv_nsec`, converted
to `uint64_t`. -/
def nanosectime (t : Timespec) : Nat :=
  Int.toNat ((t.tv_sec * 1000000000 + t.tv_nsec) % 2 ^ 64)

/-- The fields of `struct measurement`. -/
structure Measurement where
  baseline : F64
  access_time : F64
  rnd : Nat
  deriving DecidableEq, Repr

/-- The four clock readings `t0`, `t1`, `t2`, `t3` of one measurement. -/
structure Readings where
  t0 : Timespec
  t1 : Timespec
  t2 : Timespec
  t3 : Timespec
  deriving DecidableEq, Repr

/-- The baseline loop of `measure_sequential_latency`, with the number of
iterations still to run, the register `rnd` and the indices computed so far.
The result is `none` when `rnd % arr_size` divides by zero. -/
def baselineLoop (arr_size zero : Nat) : Nat → Nat → List Nat → Option (Nat × List Nat)
  | 0, rnd, visited => some (rnd, visited)
  | n + 1, rnd, visited =>
    if arr_size = 0 then none
    else
      baselineLoop arr_size zero n
        (((rnd ^^^ ((rnd % arr_size) &&& zero)) + 1) % 2 ^ 64) (visited ++ [rnd % arr_size])

/-- The memory access loop of `measure_sequential_latency`; `arr[index]` is
read from the list `arr`, and the result is `none` when the read is out of
bounds or `rnd % arr_size` divides by zero. -/
def accessLoop (arr : List Nat) (arr_size zero : Nat) : Nat → Nat → List Nat → Option (Nat × List Nat)
  | 0, rnd, visited => some (rnd, visited)
  | n + 1, rnd, visited =>
    if arr_size = 0 then none
    else
      match arr[rnd % arr_size]? with
      | none => none
      | some v =>
        accessLoop arr arr_size zero n
          (((rnd ^^^ (v &&& zero)) + 1) % 2 ^ 64) (visited ++ [rnd % arr_size])

/-- What one call of `measure_sequential_latency` does: the returned struct,
the indices computed by the baseline loop and the indices read by the access
loop, in order. -/
structure SequentialRun where
  result : Measurement
  baselineIndices : List Nat
  accessIndices : List Nat
  deriving DecidableEq, Repr

/-- The body of `measure_sequential_latency`, instrumented with the indices
of both loops. -/
def measure_sequential_latency_run (repeat_ : Nat) (arr : List Nat) (arr_size zero : Nat)
    (clk : Readings) : Option SequentialRun :=
  let reps := if arr_size > repeat_ then arr_size else repeat_
  match baselineLoop arr_size zero reps 12345 [] with
  | none => none
  | some (rnd1, bs) =>
    match accessLoop arr arr_size zero reps ((rnd1 &&& zero) ^^^ 12345) [] with
    | none => none
    | some (rnd2, as) =>
      some
        { result :=
            { baseline :=
                F64.div (F64.ofU64 ((nanosectime clk.t1 + 2 ^ 64 - nanosectime clk.t0) % 2 ^ 64))
                  (F64.ofU64 reps)
              access_time :=
                F64.div (F64.ofU64 ((nanosectime clk.t3 + 2 ^ 64 - nanosectime clk.t2) % 2 ^ 64))
                  (F64.ofU64 reps)
              rnd := rnd2 }
          baselineIndices := bs
          accessIndices := as }

/-- The function `measure_sequential_latency`. -/
def measure_sequential_latency (repeat_ : Nat) (arr : List Nat) (arr_size zero : Nat)
    (clk : Readings) : Option Measurement :=
  (measure_sequential_latency_run repeat_ arr arr_size zero clk).map SequentialRun.result

/-- Modelled from the spec: `sizeof(array_element_t)`; the type is declared in
`memory_latency.h`, and the data model has one byte per element. -/
def sizeof_array_element_t : Nat := 1

/-- What `main` takes from outside the program: the clock reading `t_dummy`,
whether the `calloc` of sweep step `k` for a given size succeeds, the result
of `measure_latency` (defined outside this file) at step `k`, and the clock
readings of the sequential measurement at step `k`. -/
structure Env where
  t_dummy : Timespec
  calloc : Nat → Nat → Bool
  measure_latency : Nat → Nat → List Nat → Nat → Nat → Measurement
  clock : Nat → Readings

/-- One line of standard output. -/
structure Record where
  array_size_in_memory : Nat
  random_offset : F64
  sequential_offset : F64
  deriving DecidableEq, Repr

/-- The messages written to standard error. -/
inductive Diag where
  | usage
  | invalidArguments
  | allocationFailed (size : Nat)
  deriving DecidableEq, Repr

/-- How a run stops: a `return` of `main`, or an operation whose behaviour C
leaves undefined (a double out of the range of `uint64_t` converted to it, a
division by zero). -/
inductive Exit where
  | code (c : Int)
  | undefinedBehaviour
  deriving DecidableEq, Repr

/-- The observable result of a run. -/
structure Result where
  exit : Exit
  stdout : List Record
  stderr : List Diag
  deriving DecidableEq, Repr

/-- The value `zero` of `main`. -/
def zeroOf (t_dummy : Timespec) : Nat :=
  if nanosectime t_dummy > 1000000000 then 0 else nanosectime t_dummy

/-- The update `array_size_in_memory = (uint64_t) (array_size_in_memory * factor)`. -/
def nextSize (array_size_in_memory : Nat) (factor : F64) : Option Nat :=
  F64.toU64 (F64.mul (F64.ofU64 array_size_in_memory) factor)

/-- The `while` loop of `main`: `fuel` bounds the number of evaluations of the
loop condition (`none` when the loop is still running after that many), `k`
counts the iterations done, `out` is the standard output so far. -/
def sweep (env : Env) (max_size : Nat) (factor : F64) (repeat_ zero : Nat) :
    Nat → Nat → Nat → List Record → Option Result
  | 0, _, _, _ => none
  | fuel + 1, k, array_size_in_memory, out =>
    if array_size_in_memory ≤ max_size then
      if env.calloc k array_size_in_memory then
        let array := List.replicate array_size_in_memory 0
        let random_measurement :=
          env.measure_latency k repeat_ array (array_size_in_memory / sizeof_array_element_t) zero
        match measure_sequential_latency repeat_ array
            (array_size_in_memory / sizeof_array_element_t) zero (env.clock k) with
        | none => some { exit := Exit.undefinedBehaviour, stdout := out, stderr := [] }
        | some sequential_measurement =>
          match nextSize array_size_in_memory factor with
          | none =>
            some
              { exit := Exit.undefinedBehaviour
                stdout := out ++
                  [{ array_size_in_memory := array_size_in_memory
                     random_offset :=
                       F64.sub random_measurement.access_time random_measurement.baseline
                     sequential_offset :=
                       F64.sub sequential_measurement.access_time sequential_measurement.baseline }]
                stderr := [] }
          | some next =>
            sweep env max_size factor repeat_ zero fuel (k + 1) next
              (out ++
                [{ array_size_in_memory := array_size_in_memory
                   random_offset :=
                     F64.sub random_measurement.access_time random_measurement.baseline
                   sequential_offset :=
                     F64.sub sequential_measurement.access_time sequential_measurement.baseline }])
      else
        some
          { exit := Exit.code (-1), stdout := out
            stderr := [Diag.allocationFailed array_size_in_memory] }
    else some { exit := Exit.code 0, stdout := out, stderr := [] }

/-- The function `main`, on the argument count and the values parsed from the
three arguments. -/
def main (env : Env) (fuel : Nat) (argc : Nat) (max_size : Nat) (factor : F64) (repeat_ : Nat) :
    Option Result :=
  if argc ≠ 4 then some { exit := Exit.code (-1), stdout := [], stderr := [Diag.usage] }
  else if max_size < 100 ∨ F64.le factor F64.one = true ∨ repeat_ ≤ 0 then
    some { exit := Exit.code (-1), stdout := [], stderr := [Diag.invalidArguments] }
  else sweep env max_size factor repeat_ (zeroOf env.t_dummy) fuel 0 100 []

/-- The sizes the sweep steps through: `100`, then the update of the loop
applied again and again (`none` from the first conversion out of range on). -/
def sizeSeq (factor : F64) : Nat → Option Nat
  | 0 => some 100
  | k + 1 => (sizeSeq factor k).bind fun s => nextSize s factor

/-- The record that sweep step `k` prints for a given size, from the two
measurements on a freshly allocated, zero-initialised array (`none` when the
sequential measurement divides by zero). -/
def recordOf (env : Env) (repeat_ zero k array_size_in_memory : Nat) : Option Record :=
  (measure_sequential_latency repeat_ (List.replicate array_size_in_memory 0)
      (array_size_in_memory / sizeof_array_element_t) zero (env.clock k)).map fun sm =>
    { array_size_in_memory := array_size_in_memory
      random_offset :=
        F64.sub
          (env.measure_latency k repeat_ (List.replicate array_size_in_memory 0)
            (array_size_in_memory / sizeof_array_element_t) zero).access_time
          (env.measure_latency k repeat_ (List.replicate array_size_in_memory 0)
            (array_size_in_memory / sizeof_array_element_t) zero).baseline
      sequential_offset := F64.sub sm.access_time sm.baseline }

/-- The records of the sweep steps `0, …, n - 1`, in order. -/
def recordsBefore (env : Env) (factor : F64) (repeat_ zero : Nat) : Nat → List Record
  | 0 => []
  | n + 1 =>
    recordsBefore env factor repeat_ zero n ++
      ((sizeSeq factor n).bind fun s => recordOf env repeat_ zero n s).toList

/-! ## The sequences of the specification -/

/-- The closed-form sequence of the specification, `100, floor(100·factor),
floor(100·factor²), …`, in exact arithmetic on the value of a finite factor. -/
def closedForm (factor : F64) (k : Nat) : Option Nat :=
  (F64.toRat factor).map fun q => ⌊100 * q ^ k⌋₊

/-- The recurrence of the specification read in exact arithmetic on the value
of a finite factor: `s_0 = 100`, `s_(k+1) = floor(s_k * factor)`. -/
def floorSeq (factor : F64) : Nat → Option Nat
  | 0 => some 100
  | k + 1 => (floorSeq factor k).bind fun s => (F64.toRat factor).map fun q => ⌊(s : ℚ) * q⌋₊

/-- The number `v` is the largest value of the sequence `seq` that does not
exceed `bound`. -/
def IsLargestNotAbove (seq : Nat → Option Nat) (bound v : Nat) : Prop :=
  (∃ k, seq k = some v) ∧ v ≤ bound ∧ ∀ k w, seq k = some w → w ≤ bound → w ≤ v

/-- Modelled from the spec: one step of the generator of `measure_latency`,
which is defined outside this file. The specification describes a Galois
linear feedback shift register over the 64-bit state with a fixed feedback
polynomial: the state is shifted right by one bit and the taps
`GALOIS_POLYNOMIAL` are XOR-ed in when the bit shifted out is set. -/
def lfsrStep (rnd : Nat) : Nat :=
  (rnd >>> 1) ^^^ (((2 ^ 64 - (rnd &&& 1)) % 2 ^ 64) &&& GALOIS_POLYNOMIAL)

/-- Modelled from the spec: the first `n` indices of the random mode of
`measure_latency` on an array of `N` elements, from the generator state `rnd`.
Each iteration reduces the state modulo `N` to obtain the index and then
advances the generator, as the loops of `measure_sequential_latency` do with
their counter. -/
def randomIndices (N : Nat) : Nat → Nat → List Nat
  | 0, _ => []
  | n + 1, rnd => (rnd % N) :: randomIndices N n (lfsrStep rnd)

/-- Modelled from the spec: the indices of the random mode when each iteration
advances the generator first and reduces the new state modulo `N`. -/
def randomIndicesAdvanceFirst (N : Nat) : Nat → Nat → List Nat
  | 0, _ => []
  | n + 1, rnd => (lfsrStep rnd % N) :: randomIndicesAdvanceFirst N n (lfsrStep rnd)

/-- Modelled from the spec: the fixed seed of the generator; the specification
does not give its value, and the sequential variant in the source starts its
counter at 12345. -/
def seed : Nat := 12345

/-! ## Sample inputs -/

/-- The double `2.0`. -/
def dbl_2 : F64 := F64.fin false 2 0

/-- The double `1.5`. -/
def dbl_1_5 : F64 := F64.fin false 3 (-1)

/-- The double nearest to `1.2`, `0x3FF3333333333333`. -/
def dbl_1_2 : F64 := F64.fin false 5404319552844595 (-52)

/-- The double nearest to `1.01`, `0x3FF028F5C28F5C29`. -/
def dbl_1_01 : F64 := F64.fin false 4548635623644201 (-52)

/-- The double `1.0009765625 = 1 + 2^-10`. -/
def dbl_1_0009765625 : F64 := F64.fin false 1025 (-10)

/-- An environment in which every allocation succeeds, the clock is at
1700000000 s after the epoch and each timed loop takes a microsecond or two. -/
def sampleEnv : Env where
  t_dummy := { tv_sec := 1700000000, tv_nsec := 0 }
  calloc := fun _ _ => true
  measure_latency := fun _ _ _ _ _ =>
    { baseline := F64.fin false 1 0, access_time := F64.fin false 3 0, rnd := 12345 }
  clock := fun _ =>
    { t0 := { tv_sec := 1700000000, tv_nsec := 0 }
      t1 := { tv_sec := 1700000000, tv_nsec := 1000 }
      t2 := { tv_sec := 1700000000, tv_nsec := 1000 }
      t3 := { tv_sec := 1700000000, tv_nsec := 3000 } }

/-! ## Facts about rounding -/

theorem bitLengthAux_spec (fuel : Nat) : ∀ n, n ≤ fuel →
    n < 2 ^ bitLengthAux fuel n ∧ (n ≠ 0 → 2 ^ (bitLengthAux fuel n - 1) ≤ n) := by
  induction fuel with
  | zero =>
    intro n hn
    have h0 : n = 0 := by omega
    subst h0
    simp [bitLengthAux]
  | succ fuel ih =>
    intro n hn
    by_cases h0 : n = 0
    · subst h0
      simp [bitLengthAux]
    · have hhalf : n / 2 ≤ fuel := by omega
      obtain ⟨hlt, hge⟩ := ih (n / 2) hhalf
      have hunf : bitLengthAux (fuel + 1) n = bitLengthAux fuel (n / 2) + 1 := by
        simp [bitLengthAux, h0]
      rw [hunf]
      refine ⟨?_, fun _ => ?_⟩
      · rw [pow_succ]
        omega
      · by_cases h1 : n / 2 = 0
        · have hz : bitLengthAux fuel (n / 2) = 0 := by
            rw [h1]
            cases fuel <;> simp [bitLengthAux]
          rw [hz]
          simp
          omega
        · have h2 := hge h1
          have hpos : 0 < bitLengthAux fuel (n / 2) := by
            by_contra hc
            have hc0 : bitLengthAux fuel (n / 2) = 0 := by omega
            rw [hc0] at hlt
            simp at hlt
            exact h1 hlt
          have hsplit : bitLengthAux fuel (n / 2) + 1 - 1 = (bitLengthAux fuel (n / 2) - 1) + 1 := by
            omega
          rw [hsplit, pow_succ]
          omega

theorem lt_two_pow_bitLength (n : Nat) : n < 2 ^ bitLength n :=
  (bitLengthAux_spec n n (Nat.le_refl n)).1

theorem two_pow_bitLength_le (n : Nat) (h : n ≠ 0) : 2 ^ (bitLength n - 1) ≤ n :=
  (bitLengthAux_spec n n (Nat.le_refl n)).2 h

theorem bitLength_le_of_lt (n b : Nat) (h : n < 2 ^ b) : bitLength n ≤ b := by
  by_cases h0 : n = 0
  · subst h0
    have : bitLength 0 = 0 := by simp [bitLength, bitLengthAux]
    omega
  · by_contra hc
    have h1 := two_pow_bitLength_le n h0
    have h2 : 2 ^ b ≤ 2 ^ (bitLength n - 1) := Nat.pow_le_pow_right (by norm_num) (by omega)
    omega

theorem bitLength_zero : bitLength 0 = 0 := by simp [bitLength, bitLengthAux]

theorem le_roundShift (M k : Nat) : M / 2 ^ k ≤ roundShift M k := by
  unfold roundShift
  split_ifs <;> omega

theorem roundShift_le (M k : Nat) : roundShift M k ≤ M / 2 ^ k + 1 := by
  unfold roundShift
  split_ifs <;> omega

theorem roundShift_zero (M : Nat) : roundShift M 0 = M := by
  simp [roundShift, Nat.mod_one]

/-- The rounded quotient is within half a unit of the exact one. -/
theorem roundShift_err (M k : Nat) :
    2 * (roundShift M k * 2 ^ k) ≤ 2 * M + 2 ^ k ∧ 2 * M ≤ 2 * (roundShift M k * 2 ^ k) + 2 ^ k := by
  have hdm := Nat.div_add_mod M (2 ^ k)
  have hr : M % 2 ^ k < 2 ^ k := Nat.mod_lt _ (by positivity)
  have hq : M / 2 ^ k * 2 ^ k = 2 ^ k * (M / 2 ^ k) := Nat.mul_comm _ _
  have hq1 : (M / 2 ^ k + 1) * 2 ^ k = 2 ^ k * (M / 2 ^ k) + 2 ^ k := by ring
  unfold roundShift
  split_ifs with h1 h2 h3
  · rw [hq]; omega
  · rw [hq1]; omega
  · rw [hq]; omega
  · rw [hq1]; omega

/-- With `k = bitLength M - 53` bits dropped, the rounded significand has at
most 53 bits (or is `2 ^ 53`), is positive when `M` is, and the rounded value
`m * 2 ^ k` is within `M / 2 ^ 53` of `M`. -/
theorem roundShift_normal (M : Nat) :
    roundShift M (bitLength M - 53) ≤ 2 ^ 53 ∧
    (1 ≤ M → 1 ≤ roundShift M (bitLength M - 53)) ∧
    2 ^ 53 * (roundShift M (bitLength M - 53) * 2 ^ (bitLength M - 53)) ≤ (2 ^ 53 + 1) * M ∧
    2 ^ 53 * M ≤ 2 ^ 53 * (roundShift M (bitLength M - 53) * 2 ^ (bitLength M - 53)) + M := by
  rcases Nat.eq_zero_or_pos (bitLength M - 53) with hk | hk
  · rw [hk, roundShift_zero]
    have hM : M < 2 ^ 53 :=
      lt_of_lt_of_le (lt_two_pow_bitLength M) (Nat.pow_le_pow_right (by norm_num) (by omega))
    refine ⟨le_of_lt hM, fun h => h, ?_, ?_⟩
    · simp only [pow_zero, Nat.mul_one]
      omega
    · simp only [pow_zero, Nat.mul_one]
      omega
  · set k := bitLength M - 53 with hkdef
    have hM0 : M ≠ 0 := by
      intro h0
      rw [h0, bitLength_zero] at hkdef
      omega
    have hlow : 2 ^ (52 + k) ≤ M := by
      have := two_pow_bitLength_le M hM0
      have he : bitLength M - 1 = 52 + k := by omega
      rwa [he] at this
    have hhigh : M < 2 ^ (53 + k) := by
      have := lt_two_pow_bitLength M
      have he : bitLength M = 53 + k := by omega
      rwa [he] at this
    have hkpos : 0 < 2 ^ k := by positivity
    have hqlow : 2 ^ 52 ≤ M / 2 ^ k := by
      rw [Nat.le_div_iff_mul_le hkpos, ← pow_add]
      exact hlow
    have hqhigh : M / 2 ^ k < 2 ^ 53 := by
      rw [Nat.div_lt_iff_lt_mul hkpos, ← pow_add]
      exact hhigh
    have hle := le_roundShift M k
    have hge := roundShift_le M k
    obtain ⟨he1, he2⟩ := roundShift_err M k
    have hP : 2 ^ k * 2 ^ 52 ≤ M := by
      rw [← pow_add, Nat.add_comm]
      exact hlow
    refine ⟨by omega, fun _ => by omega, ?_, ?_⟩
    · -- 2^53 * mP ≤ 2^53 * M + 2^52 * P ≤ 2^53 * M + M
      have h1 : 2 ^ 53 * (roundShift M k * 2 ^ k) = 2 ^ 52 * (2 * (roundShift M k * 2 ^ k)) := by
        ring
      have h2 : 2 ^ 52 * (2 * (roundShift M k * 2 ^ k)) ≤ 2 ^ 52 * (2 * M + 2 ^ k) :=
        Nat.mul_le_mul_left _ he1
      have h3 : 2 ^ 52 * (2 * M + 2 ^ k) = 2 ^ 53 * M + 2 ^ k * 2 ^ 52 := by ring
      have h4 : (2 ^ 53 + 1) * M = 2 ^ 53 * M + M := by ring
      omega
    · have h1 : 2 ^ 53 * (roundShift M k * 2 ^ k) = 2 ^ 52 * (2 * (roundShift M k * 2 ^ k)) := by
        ring
      have h2 : 2 ^ 52 * (2 * M) ≤ 2 ^ 52 * (2 * (roundShift M k * 2 ^ k) + 2 ^ k) :=
        Nat.mul_le_mul_left _ he2
      have h3 : 2 ^ 52 * (2 * (roundShift M k * 2 ^ k) + 2 ^ k) =
          2 ^ 52 * (2 * (roundShift M k * 2 ^ k)) + 2 ^ k * 2 ^ 52 := by ring
      have h4 : 2 ^ 52 * (2 * M) = 2 ^ 53 * M := by ring
      omega

theorem le_truncate_iff (c m : Nat) (e : Int) :
    c ≤ truncate m e ↔ (c : ℚ) ≤ (m : ℚ) * (2 : ℚ) ^ e := by
  unfold truncate
  have hpos : ∀ n : Nat, (0 : ℚ) < (2 : ℚ) ^ n := fun n => by positivity
  split_ifs with he
  · obtain ⟨n, rfl⟩ := Int.eq_ofNat_of_zero_le he
    rw [Int.toNat_ofNat, zpow_natCast]
    constructor
    · intro h
      have : ((c : ℕ) : ℚ) ≤ ((m * 2 ^ n : ℕ) : ℚ) := by exact_mod_cast h
      simpa using this
    · intro h
      have : ((c : ℕ) : ℚ) ≤ ((m * 2 ^ n : ℕ) : ℚ) := by simpa using h
      exact_mod_cast this
  · have hneg : 0 ≤ -e := by omega
    obtain ⟨n, hn⟩ := Int.eq_ofNat_of_zero_le hneg
    have he' : e = -(n : Int) := by omega
    rw [hn, Int.toNat_ofNat, he', zpow_neg, zpow_natCast]
    rw [Nat.le_div_iff_mul_le (by positivity)]
    rw [← div_eq_mul_inv, le_div_iff₀ (hpos n)]
    constructor
    · intro h
      have : ((c * 2 ^ n : ℕ) : ℚ) ≤ ((m : ℕ) : ℚ) := by exact_mod_cast h
      simpa using this
    · intro h
      have : ((c * 2 ^ n : ℕ) : ℚ) ≤ ((m : ℕ) : ℚ) := by simpa using h
      exact_mod_cast this

theorem round_cases (sign : Bool) (M : Nat) (E : Int) :
    F64.round sign M E = F64.inf sign ∨
      F64.round sign M E = F64.fin sign (roundShift M (dropBits M E)) (E + (dropBits M E : Int)) := by
  unfold F64.round
  split_ifs
  · exact Or.inl rfl
  · exact Or.inr rfl

/-- Rounding never goes below a binary64 value that the exact value reaches:
for `a ≤ 2 ^ 53` and `j ≥ -1074`, `a * 2 ^ j ≤ M * 2 ^ E` carries over to the
rounded significand and exponent. -/
theorem round_lower (M : Nat) (E : Int) (a : Nat) (j : Int) (ha : a ≤ 2 ^ 53) (hj : -1074 ≤ j)
    (h : (a : ℚ) * (2 : ℚ) ^ j ≤ (M : ℚ) * (2 : ℚ) ^ E) :
    (a : ℚ) * (2 : ℚ) ^ j ≤
      (roundShift M (dropBits M E) : ℚ) * (2 : ℚ) ^ (E + (dropBits M E : Int)) := by
  have h2 : (2 : ℚ) ≠ 0 := by norm_num
  have hposz : ∀ z : Int, (0 : ℚ) < (2 : ℚ) ^ z := fun z => by positivity
  set k := dropBits M E with hk
  have hq : ((M / 2 ^ k : ℕ) : ℚ) ≤ (roundShift M k : ℚ) := by exact_mod_cast le_roundShift M k
  suffices hs : (a : ℚ) * (2 : ℚ) ^ j ≤ ((M / 2 ^ k : ℕ) : ℚ) * (2 : ℚ) ^ (E + (k : Int)) from
    le_trans hs (mul_le_mul_of_nonneg_right hq (le_of_lt (hposz _)))
  by_cases hcase : E + (k : Int) ≤ j
  · -- the threshold is a multiple of the unit of the result
    obtain ⟨d, hd⟩ := Int.eq_ofNat_of_zero_le (show 0 ≤ j - (E + (k : Int)) by omega)
    have hjd : j = (E + (k : Int)) + (d : Int) := by omega
    have hE : (2 : ℚ) ^ E = (2 : ℚ) ^ (E + (k : Int)) / (2 : ℚ) ^ k := by
      rw [← zpow_natCast (2 : ℚ) k, ← zpow_sub₀ h2]
      congr 1
      omega
    rw [hjd, zpow_add₀ h2, zpow_natCast] at h ⊢
    rw [hE] at h
    -- now h : a * (2^(E+k) * 2^d) ≤ M * (2^(E+k) / 2^k)
    have hkpos : (0 : ℚ) < (2 : ℚ) ^ k := by positivity
    have h3 : (a : ℚ) * (2 : ℚ) ^ d * (2 : ℚ) ^ k ≤ (M : ℚ) := by
      have h4 : (a : ℚ) * ((2 : ℚ) ^ (E + (k : Int)) * (2 : ℚ) ^ d) * (2 : ℚ) ^ k
          ≤ (M : ℚ) * ((2 : ℚ) ^ (E + (k : Int)) / (2 : ℚ) ^ k) * (2 : ℚ) ^ k :=
        mul_le_mul_of_nonneg_right h (le_of_lt hkpos)
      have h5 : (M : ℚ) * ((2 : ℚ) ^ (E + (k : Int)) / (2 : ℚ) ^ k) * (2 : ℚ) ^ k
          = (M : ℚ) * (2 : ℚ) ^ (E + (k : Int)) := by
        field_simp
      rw [h5] at h4
      have h6 : (a : ℚ) * ((2 : ℚ) ^ (E + (k : Int)) * (2 : ℚ) ^ d) * (2 : ℚ) ^ k
          = ((a : ℚ) * (2 : ℚ) ^ d * (2 : ℚ) ^ k) * (2 : ℚ) ^ (E + (k : Int)) := by ring
      rw [h6] at h4
      exact le_of_mul_le_mul_right h4 (hposz _)
    have h7 : a * 2 ^ d * 2 ^ k ≤ M := by exact_mod_cast h3
    have h8 : a * 2 ^ d ≤ M / 2 ^ k := (Nat.le_div_iff_mul_le (by positivity)).2 h7
    have h9 : ((a * 2 ^ d : ℕ) : ℚ) ≤ ((M / 2 ^ k : ℕ) : ℚ) := by exact_mod_cast h8
    calc (a : ℚ) * ((2 : ℚ) ^ (E + (k : Int)) * (2 : ℚ) ^ d)
        = ((a * 2 ^ d : ℕ) : ℚ) * (2 : ℚ) ^ (E + (k : Int)) := by push_cast; ring
      _ ≤ ((M / 2 ^ k : ℕ) : ℚ) * (2 : ℚ) ^ (E + (k : Int)) :=
          mul_le_mul_of_nonneg_right h9 (le_of_lt (hposz _))
  · -- the unit of the result is above that of the threshold
    have hlt : j < E + (k : Int) := by omega
    by_cases hk0 : k = 0
    · rw [hk0]
      simpa using h
    · have hkdef : k = max (bitLength M - 53) (Int.toNat (-1074 - E)) := hk
      have hsub : Int.toNat (-1074 - E) ≤ bitLength M - 53 := by
        by_contra hc
        have : k = Int.toNat (-1074 - E) := by
          rw [hkdef]; exact max_eq_right (by omega)
        omega
      have hkb : k = bitLength M - 53 := by
        rw [hkdef]; exact max_eq_left hsub
      have hM0 : M ≠ 0 := by
        intro h0
        rw [h0] at hkb
        have : bitLength 0 = 0 := by simp [bitLength, bitLengthAux]
        omega
      have hMge : 2 ^ (k + 52) ≤ M := by
        have := two_pow_bitLength_le M hM0
        have he : bitLength M - 1 = k + 52 := by omega
        rwa [he] at this
      have hqge : 2 ^ 52 ≤ M / 2 ^ k := by
        rw [Nat.le_div_iff_mul_le (by positivity), ← pow_add]
        have : 52 + k = k + 52 := by omega
        rwa [this]
      have hqge' : ((2 : ℚ) ^ 52) ≤ ((M / 2 ^ k : ℕ) : ℚ) := by exact_mod_cast hqge
      have ha' : (a : ℚ) ≤ (2 : ℚ) ^ 53 := by exact_mod_cast ha
      have hstep : (2 : ℚ) ^ (j + 1) ≤ (2 : ℚ) ^ (E + (k : Int)) :=
        zpow_le_zpow_right₀ (by norm_num) (by omega)
      have hj1 : (2 : ℚ) ^ (j + 1) = (2 : ℚ) ^ j * 2 := by
        rw [zpow_add₀ h2, zpow_one]
      calc (a : ℚ) * (2 : ℚ) ^ j ≤ (2 : ℚ) ^ 53 * (2 : ℚ) ^ j :=
            mul_le_mul_of_nonneg_right ha' (le_of_lt (hposz _))
        _ = (2 : ℚ) ^ 52 * (2 : ℚ) ^ (j + 1) := by rw [hj1]; ring
        _ ≤ (2 : ℚ) ^ 52 * (2 : ℚ) ^ (E + (k : Int)) :=
            mul_le_mul_of_nonneg_left hstep (by positivity)
        _ ≤ ((M / 2 ^ k : ℕ) : ℚ) * (2 : ℚ) ^ (E + (k : Int)) :=
            mul_le_mul_of_nonneg_right hqge' (le_of_lt (hposz _))

/-- Rounding in the normal range, without overflow: the result is finite and
within a relative error of `2 ^ (-53)` of the exact value. -/
theorem round_normal (sign : Bool) (M : Nat) (E : Int)
    (hsub : Int.toNat (-1074 - E) ≤ bitLength M - 53)
    (hover : (bitLength M : Int) + E ≤ 1023) :
    F64.round sign M E =
      F64.fin sign (roundShift M (bitLength M - 53)) (E + ((bitLength M - 53 : ℕ) : Int)) ∧
    (M : ℚ) * (2 : ℚ) ^ E * (1 - 1 / 2 ^ 53) ≤
      (roundShift M (bitLength M - 53) : ℚ) * (2 : ℚ) ^ (E + ((bitLength M - 53 : ℕ) : Int)) ∧
    (roundShift M (bitLength M - 53) : ℚ) * (2 : ℚ) ^ (E + ((bitLength M - 53 : ℕ) : Int)) ≤
      (M : ℚ) * (2 : ℚ) ^ E * (1 + 1 / 2 ^ 53) := by
  have h2 : (2 : ℚ) ≠ 0 := by norm_num
  have hk : dropBits M E = bitLength M - 53 := by
    unfold dropBits
    exact max_eq_left hsub
  obtain ⟨hm53, _, herr1, herr2⟩ := roundShift_normal M
  have hblm : bitLength (roundShift M (bitLength M - 53)) + (bitLength M - 53) ≤
      bitLength M + 1 := by
    rcases Nat.eq_zero_or_pos (bitLength M - 53) with h0 | h0
    · rw [h0, roundShift_zero]
      omega
    · have := bitLength_le_of_lt (roundShift M (bitLength M - 53)) 54 (by omega)
      omega
  have hround : F64.round sign M E =
      F64.fin sign (roundShift M (bitLength M - 53)) (E + ((bitLength M - 53 : ℕ) : Int)) := by
    unfold F64.round
    rw [hk, if_neg]
    omega
  generalize bitLength M - 53 = k at *
  generalize roundShift M k = m at *
  refine ⟨hround, ?_, ?_⟩
  · have hU : (0 : ℚ) < (2 : ℚ) ^ E := by positivity
    rw [zpow_add₀ h2, zpow_natCast]
    have h1 : ((2 ^ 53 * M : ℕ) : ℚ) ≤ ((2 ^ 53 * (m * 2 ^ k) + M : ℕ) : ℚ) := by
      exact_mod_cast herr2
    push_cast at h1
    have h3 : (M : ℚ) * (1 - 1 / 2 ^ 53) ≤ (m : ℚ) * (2 : ℚ) ^ k := by
      have : (M : ℚ) * (1 - 1 / 2 ^ 53) = ((2 : ℚ) ^ 53 * M - M) / 2 ^ 53 := by
        field_simp
        ring
      rw [this, div_le_iff₀ (by positivity)]
      linarith
    calc (M : ℚ) * (2 : ℚ) ^ E * (1 - 1 / 2 ^ 53)
        = (M : ℚ) * (1 - 1 / 2 ^ 53) * (2 : ℚ) ^ E := by ring
      _ ≤ (m : ℚ) * (2 : ℚ) ^ k * (2 : ℚ) ^ E := mul_le_mul_of_nonneg_right h3 (le_of_lt hU)
      _ = _ := by ring
  · have hU : (0 : ℚ) < (2 : ℚ) ^ E := by positivity
    rw [zpow_add₀ h2, zpow_natCast]
    have h1 : ((2 ^ 53 * (m * 2 ^ k) : ℕ) : ℚ) ≤ (((2 ^ 53 + 1) * M : ℕ) : ℚ) := by
      exact_mod_cast herr1
    push_cast at h1
    have h3 : (m : ℚ) * (2 : ℚ) ^ k ≤ (M : ℚ) * (1 + 1 / 2 ^ 53) := by
      have : (M : ℚ) * (1 + 1 / 2 ^ 53) = ((2 : ℚ) ^ 53 + 1) * M / 2 ^ 53 := by
        field_simp
        ring
      rw [this, le_div_iff₀ (by positivity)]
      linarith
    calc (m : ℚ) * ((2 : ℚ) ^ E * (2 : ℚ) ^ k)
        = (m : ℚ) * (2 : ℚ) ^ k * (2 : ℚ) ^ E := by ring
      _ ≤ (M : ℚ) * (1 + 1 / 2 ^ 53) * (2 : ℚ) ^ E := mul_le_mul_of_nonneg_right h3 (le_of_lt hU)
      _ = _ := by ring

/-! ## Facts about the size update -/

theorem toU64_fin_eq (sign : Bool) (m : Nat) (e : Int) (t : Nat)
    (h : F64.toU64 (F64.fin sign m e) = some t) : t = truncate m e ∧ t < 2 ^ 64 := by
  simp only [F64.toU64] at h
  split_ifs at h with h0 h1 h2
  · have : t = 0 := by simpa using h.symm
    subst this
    exact ⟨h0.symm, by norm_num⟩
  · have : t = truncate m e := by simpa using h.symm
    subst this
    exact ⟨rfl, h2⟩

/-- The updated size is the integral part of the double product. -/
theorem nextSize_eq_floor (s : Nat) (factor : F64) (t : Nat) (h : nextSize s factor = some t) :
    ∃ q, F64.toRat (F64.mul (F64.ofU64 s) factor) = some q ∧ t = ⌊q⌋₊ := by
  unfold nextSize at h
  cases hm : F64.mul (F64.ofU64 s) factor with
  | nan => rw [hm] at h; simp [F64.toU64] at h
  | inf sign => rw [hm] at h; simp [F64.toU64] at h
  | fin sign m e =>
    rw [hm] at h
    have hpos : (0 : ℚ) ≤ (m : ℚ) * (2 : ℚ) ^ e := by positivity
    have hfloor : ⌊(m : ℚ) * (2 : ℚ) ^ e⌋₊ = truncate m e := by
      apply le_antisymm
      · rw [le_truncate_iff]
        exact Nat.floor_le hpos
      · rw [Nat.le_floor_iff hpos, ← le_truncate_iff]
    refine ⟨_, rfl, ?_⟩
    simp only [F64.toU64] at h
    split_ifs at h with h0 h1 h2
    · have ht : t = 0 := by simpa using h.symm
      subst ht
      cases sign
      · simp only [Bool.false_eq_true, if_false, one_mul]
        rw [hfloor, h0]
      · simp only [if_true]
        symm
        apply Nat.floor_of_nonpos
        have : (-1 : ℚ) * (m : ℚ) * (2 : ℚ) ^ e = -((m : ℚ) * (2 : ℚ) ^ e) := by ring
        rw [this]
        linarith
    · have ht : t = truncate m e := by simpa using h.symm
      have hs : sign = false := by simpa using h1
      subst hs
      simp only [Bool.false_eq_true, if_false, one_mul]
      rw [hfloor, ht]

/-- A factor that passes the test `factor <= 1` of `main` and is finite is
positive and greater than one. -/
theorem one_lt_of_le_one_false (sf : Bool) (mf : Nat) (ef : Int)
    (h : F64.le (F64.fin sf mf ef) F64.one = false) :
    sf = false ∧ (1 : ℚ) < (mf : ℚ) * (2 : ℚ) ^ ef := by
  have h2 : (2 : ℚ) ≠ 0 := by norm_num
  simp only [F64.le, F64.one, decide_eq_false_iff_not, not_le] at h
  obtain ⟨p, hp⟩ := Int.eq_ofNat_of_zero_le (show 0 ≤ ef - min ef 0 by omega)
  obtain ⟨r, hr⟩ := Int.eq_ofNat_of_zero_le (show 0 ≤ 0 - min ef 0 by omega)
  rw [hp, hr, Int.toNat_ofNat, Int.toNat_ofNat] at h
  have hsf : sf = false := by
    cases sf
    · rfl
    · exfalso
      simp only [signed, if_true] at h
      have h1 : (0 : Int) ≤ ((mf * 2 ^ p : ℕ) : Int) := Int.natCast_nonneg _
      have h3 : (0 : Int) ≤ ((1 * 2 ^ r : ℕ) : Int) := Int.natCast_nonneg _
      simp only [Bool.false_eq_true, if_false] at h
      omega
  refine ⟨hsf, ?_⟩
  subst hsf
  simp only [signed, Bool.false_eq_true, if_false] at h
  have h4 : 1 * 2 ^ r < mf * 2 ^ p := by exact_mod_cast h
  have h5 : ((1 * 2 ^ r : ℕ) : ℚ) < ((mf * 2 ^ p : ℕ) : ℚ) := by exact_mod_cast h4
  push_cast at h5
  have hef : ef = (p : Int) - (r : Int) := by omega
  rw [hef, zpow_sub₀ h2, zpow_natCast, zpow_natCast]
  have hrpos : (0 : ℚ) < (2 : ℚ) ^ r := by positivity
  rw [← mul_div_assoc, lt_div_iff₀ hrpos]
  linarith

/-- A non-negative finite factor greater than one passes the test
`factor <= 1` of `main`. -/
theorem le_one_false_of_one_lt (mf : Nat) (ef : Int) (h : (1 : ℚ) < (mf : ℚ) * (2 : ℚ) ^ ef) :
    F64.le (F64.fin false mf ef) F64.one = false := by
  have h2 : (2 : ℚ) ≠ 0 := by norm_num
  simp only [F64.le, F64.one, decide_eq_false_iff_not, not_le]
  obtain ⟨p, hp⟩ := Int.eq_ofNat_of_zero_le (show 0 ≤ ef - min ef 0 by omega)
  obtain ⟨r, hr⟩ := Int.eq_ofNat_of_zero_le (show 0 ≤ 0 - min ef 0 by omega)
  rw [hp, hr, Int.toNat_ofNat, Int.toNat_ofNat]
  simp only [signed, Bool.false_eq_true, if_false]
  have hef : ef = (p : Int) - (r : Int) := by omega
  rw [hef, zpow_sub₀ h2, zpow_natCast, zpow_natCast] at h
  have hrpos : (0 : ℚ) < (2 : ℚ) ^ r := by positivity
  rw [← mul_div_assoc, lt_div_iff₀ hrpos] at h
  have h5 : ((1 * 2 ^ r : ℕ) : ℚ) < ((mf * 2 ^ p : ℕ) : ℚ) := by
    push_cast
    linarith
  have h4 : 1 * 2 ^ r < mf * 2 ^ p := by exact_mod_cast h5
  exact_mod_cast h4

/-- Lower bounds pass through the size update: if the exact product of
`(double) s` and a non-negative finite factor reaches a binary64 value
`a * 2 ^ j` that is a natural number, so does the updated size. -/
theorem le_nextSize (s mf : Nat) (ef : Int) (t a j : Nat) (ha : a ≤ 2 ^ 53)
    (hprod : (a : ℚ) * (2 : ℚ) ^ j ≤
      (roundShift s (dropBits s 0) : ℚ) * (2 : ℚ) ^ ((0 : Int) + (dropBits s 0 : Int)) *
        ((mf : ℚ) * (2 : ℚ) ^ ef))
    (h : nextSize s (F64.fin false mf ef) = some t) : a * 2 ^ j ≤ t := by
  have h2 : (2 : ℚ) ≠ 0 := by norm_num
  unfold nextSize F64.ofU64 at h
  rcases round_cases false s 0 with hs | hs
  · rw [hs] at h
    simp only [F64.mul] at h
    split_ifs at h <;> simp [F64.toU64] at h
  · rw [hs] at h
    simp only [F64.mul] at h
    rcases round_cases (xor false false)
        (roundShift s (dropBits s 0) * mf) ((0 : Int) + (dropBits s 0 : Int) + ef) with hp | hp
    · rw [hp] at h
      simp [F64.toU64] at h
    · rw [hp] at h
      obtain ⟨ht, _⟩ := toU64_fin_eq _ _ _ _ h
      rw [ht, le_truncate_iff]
      have hexact : (a : ℚ) * (2 : ℚ) ^ ((j : ℕ) : Int) ≤
          ((roundShift s (dropBits s 0) * mf : ℕ) : ℚ) *
            (2 : ℚ) ^ ((0 : Int) + (dropBits s 0 : Int) + ef) := by
        rw [zpow_natCast, zpow_add₀ h2]
        push_cast
        calc (a : ℚ) * (2 : ℚ) ^ j ≤ _ := hprod
          _ = _ := by ring
      have := round_lower _ _ a (j : Int) ha (by omega) hexact
      push_cast
      rw [zpow_natCast] at this
      exact this

/-- The conversion `(double) s` does not go below a binary64 value that `s`
reaches. -/
theorem le_ofU64 (s a j : Nat) (ha : a ≤ 2 ^ 53) (h : a * 2 ^ j ≤ s) :
    (a : ℚ) * (2 : ℚ) ^ j ≤
      (roundShift s (dropBits s 0) : ℚ) * (2 : ℚ) ^ ((0 : Int) + (dropBits s 0 : Int)) := by
  have h1 : (a : ℚ) * (2 : ℚ) ^ ((j : ℕ) : Int) ≤ (s : ℚ) * (2 : ℚ) ^ (0 : Int) := by
    rw [zpow_natCast, zpow_zero, mul_one]
    exact_mod_cast h
  have := round_lower s 0 a (j : Int) ha (by omega) h1
  rwa [zpow_natCast] at this

/-- The sizes of the sweep never fall below the initial size. -/
theorem hundred_le_nextSize (s : Nat) (factor : F64) (t : Nat) (hs : 100 ≤ s)
    (hf : F64.le factor F64.one = false) (h : nextSize s factor = some t) : 100 ≤ t := by
  cases factor with
  | nan =>
    unfold nextSize F64.ofU64 at h
    rcases round_cases false s 0 with hr | hr <;> rw [hr] at h <;>
      simp [F64.mul, F64.toU64] at h
  | inf sign =>
    unfold nextSize F64.ofU64 at h
    rcases round_cases false s 0 with hr | hr <;> rw [hr] at h <;> simp only [F64.mul] at h
    · simp [F64.toU64] at h
    · split_ifs at h <;> simp [F64.toU64] at h
  | fin sf mf ef =>
    obtain ⟨hsf, hgt⟩ := one_lt_of_le_one_false sf mf ef hf
    subst hsf
    have hconv := le_ofU64 s 100 0 (by norm_num) (by simpa using hs)
    have hpos : (0 : ℚ) ≤ (100 : ℚ) * (2 : ℚ) ^ 0 := by norm_num
    have := le_nextSize s mf ef t 100 0 (by norm_num)
      (by
        calc ((100 : ℕ) : ℚ) * (2 : ℚ) ^ 0 = ((100 : ℕ) : ℚ) * (2 : ℚ) ^ 0 * 1 := by ring
          _ ≤ _ := mul_le_mul hconv (le_of_lt hgt) (by norm_num) (le_trans (by norm_num) hconv)) h
    simpa using this

theorem dropBits_zero_exp (s : Nat) : dropBits s 0 = bitLength s - 53 := by
  unfold dropBits
  simp

/-- Sizes below `2 ^ 53` are converted to `double` exactly: a natural number
`c ≤ 2 ^ 53` that the exact product `s * factor` reaches is reached by the
updated size. -/
theorem le_nextSize_small (s mf : Nat) (ef : Int) (t c : Nat) (hj : dropBits s 0 = 0)
    (hc53 : c ≤ 2 ^ 53) (hc : (c : ℚ) ≤ (s : ℚ) * ((mf : ℚ) * (2 : ℚ) ^ ef))
    (h : nextSize s (F64.fin false mf ef) = some t) : c ≤ t := by
  have := le_nextSize s mf ef t c 0 hc53
    (by
      rw [hj, roundShift_zero]
      simpa using hc) h
  simpa using this

/-- Sizes from `2 ^ 53` on: the update by a factor of at least `1 + 2 ^ (-52)`
(the least double above one) is strictly greater than the size. -/
theorem lt_nextSize_large (s mf : Nat) (ef : Int) (t : Nat) (hj : 0 < dropBits s 0)
    (hf : 1 + (2 : ℚ) ^ (-52 : Int) ≤ (mf : ℚ) * (2 : ℚ) ^ ef)
    (h : nextSize s (F64.fin false mf ef) = some t) : s < t := by
  set j := dropBits s 0 with hjdef
  have hbl : bitLength s = 53 + j := by
    rw [hjdef, dropBits_zero_exp] at hj ⊢
    omega
  have hs0 : s ≠ 0 := by
    intro h0
    rw [h0] at hbl
    have : bitLength 0 = 0 := by simp [bitLength, bitLengthAux]
    omega
  have hlow : 2 ^ (52 + j) ≤ s := by
    have := two_pow_bitLength_le s hs0
    have he : bitLength s - 1 = 52 + j := by omega
    rwa [he] at this
  have hhigh : s < 2 ^ (53 + j) := by
    have := lt_two_pow_bitLength s
    rwa [hbl] at this
  have hjpos : 0 < 2 ^ j := by positivity
  have hqlow : 2 ^ 52 ≤ s / 2 ^ j := by
    rw [Nat.le_div_iff_mul_le hjpos, ← pow_add]
    exact hlow
  have hqhigh : s / 2 ^ j < 2 ^ 53 := by
    rw [Nat.div_lt_iff_lt_mul hjpos, ← pow_add]
    exact hhigh
  have hmlow := le_roundShift s j
  have hmhigh := roundShift_le s j
  have hslt : s < (s / 2 ^ j + 1) * 2 ^ j := by
    have := Nat.lt_succ_self (s / 2 ^ j)
    exact (Nat.div_lt_iff_lt_mul hjpos).1 this
  have hzj : (2 : ℚ) ^ ((0 : Int) + (j : Int)) = (2 : ℚ) ^ j := by
    rw [zero_add, zpow_natCast]
  have h52 : (2 : ℚ) ^ (-52 : Int) = 1 / (2 : ℚ) ^ 52 := by
    rw [zpow_neg, one_div]
    norm_cast
  have hm52 : ((2 : ℚ) ^ 52) ≤ (roundShift s j : ℚ) := by
    have : 2 ^ 52 ≤ roundShift s j := le_trans hqlow hmlow
    exact_mod_cast this
  have hjq : (0 : ℚ) < (2 : ℚ) ^ j := by positivity
  by_cases hcarry : roundShift s j < 2 ^ 53
  · -- the threshold (m + 1) * 2 ^ j
    have hprod : ((roundShift s j + 1 : ℕ) : ℚ) * (2 : ℚ) ^ j ≤
        (roundShift s j : ℚ) * (2 : ℚ) ^ ((0 : Int) + (j : Int)) *
          ((mf : ℚ) * (2 : ℚ) ^ ef) := by
      rw [hzj]
      have h1 : ((roundShift s j + 1 : ℕ) : ℚ) ≤
          (roundShift s j : ℚ) * ((mf : ℚ) * (2 : ℚ) ^ ef) := by
        push_cast
        have h2 : (roundShift s j : ℚ) * (1 + (2 : ℚ) ^ (-52 : Int)) ≤
            (roundShift s j : ℚ) * ((mf : ℚ) * (2 : ℚ) ^ ef) :=
          mul_le_mul_of_nonneg_left hf (by positivity)
        have h3 : (1 : ℚ) ≤ (roundShift s j : ℚ) * (2 : ℚ) ^ (-52 : Int) := by
          rw [h52, mul_one_div, le_div_iff₀ (by positivity)]
          linarith
        linarith
      calc ((roundShift s j + 1 : ℕ) : ℚ) * (2 : ℚ) ^ j
          ≤ (roundShift s j : ℚ) * ((mf : ℚ) * (2 : ℚ) ^ ef) * (2 : ℚ) ^ j :=
            mul_le_mul_of_nonneg_right h1 (le_of_lt hjq)
        _ = _ := by ring
    have hle := le_nextSize s mf ef t (roundShift s j + 1) j (by omega) hprod h
    have hmono : (s / 2 ^ j + 1) * 2 ^ j ≤ (roundShift s j + 1) * 2 ^ j :=
      Nat.mul_le_mul_right _ (by omega)
    omega
  · -- the significand was rounded up to 2 ^ 53
    have hm : roundShift s j = 2 ^ 53 := by omega
    have hprod : ((2 ^ 52 + 1 : ℕ) : ℚ) * (2 : ℚ) ^ (j + 1) ≤
        (roundShift s j : ℚ) * (2 : ℚ) ^ ((0 : Int) + (j : Int)) *
          ((mf : ℚ) * (2 : ℚ) ^ ef) := by
      rw [hzj, hm]
      have h1 : ((2 ^ 52 + 1 : ℕ) : ℚ) * 2 ≤ ((2 ^ 53 : ℕ) : ℚ) * ((mf : ℚ) * (2 : ℚ) ^ ef) := by
        have h2 : ((2 ^ 53 : ℕ) : ℚ) * (1 + (2 : ℚ) ^ (-52 : Int)) ≤
            ((2 ^ 53 : ℕ) : ℚ) * ((mf : ℚ) * (2 : ℚ) ^ ef) :=
          mul_le_mul_of_nonneg_left hf (by positivity)
        have h3 : ((2 ^ 52 + 1 : ℕ) : ℚ) * 2 = ((2 ^ 53 : ℕ) : ℚ) * (1 + (2 : ℚ) ^ (-52 : Int)) := by
          rw [h52]
          norm_num
        linarith
      calc ((2 ^ 52 + 1 : ℕ) : ℚ) * (2 : ℚ) ^ (j + 1)
          = ((2 ^ 52 + 1 : ℕ) : ℚ) * 2 * (2 : ℚ) ^ j := by rw [pow_succ]; ring
        _ ≤ ((2 ^ 53 : ℕ) : ℚ) * ((mf : ℚ) * (2 : ℚ) ^ ef) * (2 : ℚ) ^ j :=
            mul_le_mul_of_nonneg_right h1 (le_of_lt hjq)
        _ = _ := by ring
    have hle := le_nextSize s mf ef t (2 ^ 52 + 1) (j + 1) (by norm_num) hprod h
    have hexp : (2 ^ 52 + 1) * 2 ^ (j + 1) = 2 ^ (53 + j) + 2 * 2 ^ j := by
      rw [pow_succ, pow_add]
      ring
    omega

/-- A factor of at least 1.01 strictly increases every size from 100 on. -/
theorem lt_nextSize (s mf : Nat) (ef : Int) (t : Nat) (hs : 100 ≤ s)
    (hf : (101 : ℚ) / 100 ≤ (mf : ℚ) * (2 : ℚ) ^ ef)
    (h : nextSize s (F64.fin false mf ef) = some t) : s < t := by
  rcases Nat.eq_zero_or_pos (dropBits s 0) with hj | hj
  · have hs53 : s < 2 ^ 53 := by
      rw [dropBits_zero_exp] at hj
      have := lt_two_pow_bitLength s
      have hb : bitLength s ≤ 53 := by omega
      exact lt_of_lt_of_le this (Nat.pow_le_pow_right (by norm_num) hb)
    have hsq : (100 : ℚ) ≤ (s : ℚ) := by exact_mod_cast hs
    have := le_nextSize_small s mf ef t (s + 1) hj (by omega)
      (by
        push_cast
        have h1 : (s : ℚ) * ((101 : ℚ) / 100) ≤ (s : ℚ) * ((mf : ℚ) * (2 : ℚ) ^ ef) :=
          mul_le_mul_of_nonneg_left hf (by positivity)
        linarith) h
    omega
  · refine lt_nextSize_large s mf ef t hj ?_ h
    have h52 : (2 : ℚ) ^ (-52 : Int) = 1 / (2 : ℚ) ^ 52 := by
      rw [zpow_neg, one_div]
      norm_cast
    have : 1 + (2 : ℚ) ^ (-52 : Int) ≤ (101 : ℚ) / 100 := by
      rw [h52]
      norm_num
    exact le_trans this hf

/-- A binary64 value greater than one is at least `1 + 2 ^ (-52)`. -/
theorem succ_ulp_le_of_one_lt (mf : Nat) (ef : Int) (hm : mf < 2 ^ 53)
    (hgt : (1 : ℚ) < (mf : ℚ) * (2 : ℚ) ^ ef) :
    1 + (2 : ℚ) ^ (-52 : Int) ≤ (mf : ℚ) * (2 : ℚ) ^ ef := by
  have h52 : (2 : ℚ) ^ (-52 : Int) = 1 / (2 : ℚ) ^ 52 := by
    rw [zpow_neg, one_div]
    norm_cast
  by_cases he : 0 ≤ ef
  · obtain ⟨n, rfl⟩ := Int.eq_ofNat_of_zero_le he
    rw [zpow_natCast] at hgt ⊢
    have h1 : (1 : ℕ) < mf * 2 ^ n := by exact_mod_cast hgt
    have h2 : ((2 : ℕ) : ℚ) ≤ ((mf * 2 ^ n : ℕ) : ℚ) := by exact_mod_cast h1
    push_cast at h2
    rw [h52]
    have : (1 : ℚ) / 2 ^ 52 ≤ 1 := by norm_num
    linarith
  · obtain ⟨n, hn⟩ := Int.eq_ofNat_of_zero_le (show 0 ≤ -ef by omega)
    have hef : ef = -(n : Int) := by omega
    rw [hef, zpow_neg, zpow_natCast] at hgt
    rw [hef, h52, zpow_neg (2 : ℚ) (n : Int), zpow_natCast]
    have hnpos : (0 : ℚ) < (2 : ℚ) ^ n := by positivity
    rw [← div_eq_mul_inv, lt_div_iff₀ hnpos, one_mul] at hgt
    have h1 : 2 ^ n < mf := by exact_mod_cast hgt
    have hn52 : n ≤ 52 := by
      by_contra hc
      have : 2 ^ 53 ≤ 2 ^ n := Nat.pow_le_pow_right (by norm_num) (by omega)
      omega
    have h2 : ((2 ^ n + 1 : ℕ) : ℚ) ≤ (mf : ℚ) := by exact_mod_cast h1
    push_cast at h2
    have h3 : (2 : ℚ) ^ n ≤ (2 : ℚ) ^ 52 := pow_le_pow_right₀ (by norm_num) hn52
    rw [← div_eq_mul_inv, le_div_iff₀ hnpos]
    have h4 : (1 : ℚ) / 2 ^ 52 * 2 ^ n ≤ 1 := by
      rw [div_mul_eq_mul_div, one_mul, div_le_one (by positivity)]
      exact h3
    linarith

/-- A double greater than one never decreases a size. -/
theorem le_nextSize_of_isDouble (s : Nat) (factor : F64) (t : Nat) (hd : F64.isDouble factor)
    (hf : F64.le factor F64.one = false) (h : nextSize s factor = some t) : s ≤ t := by
  cases factor with
  | nan =>
    unfold nextSize F64.ofU64 at h
    rcases round_cases false s 0 with hr | hr <;> rw [hr] at h <;>
      simp [F64.mul, F64.toU64] at h
  | inf sign =>
    unfold nextSize F64.ofU64 at h
    rcases round_cases false s 0 with hr | hr <;> rw [hr] at h <;> simp only [F64.mul] at h
    · simp [F64.toU64] at h
    · split_ifs at h <;> simp [F64.toU64] at h
  | fin sf mf ef =>
    obtain ⟨hsf, hgt⟩ := one_lt_of_le_one_false sf mf ef hf
    subst hsf
    rcases Nat.eq_zero_or_pos (dropBits s 0) with hj | hj
    · have hs53 : s < 2 ^ 53 := by
        rw [dropBits_zero_exp] at hj
        have := lt_two_pow_bitLength s
        have hb : bitLength s ≤ 53 := by omega
        exact lt_of_lt_of_le this (Nat.pow_le_pow_right (by norm_num) hb)
      exact le_nextSize_small s mf ef t s hj (by omega)
        (by
          have h1 : (s : ℚ) * 1 ≤ (s : ℚ) * ((mf : ℚ) * (2 : ℚ) ^ ef) :=
            mul_le_mul_of_nonneg_left (le_of_lt hgt) (by positivity)
          linarith) h
    · exact le_of_lt (lt_nextSize_large s mf ef t hj
        (succ_ulp_le_of_one_lt mf ef hd.1 hgt) h)

/-- The sizes of the sweep are at least 100 wherever they are defined. -/
theorem hundred_le_sizeSeq (factor : F64) (hf : F64.le factor F64.one = false) :
    ∀ n s, sizeSeq factor n = some s → 100 ≤ s := by
  intro n
  induction n with
  | zero =>
    intro s h
    simp [sizeSeq] at h
    omega
  | succ n ih =>
    intro s h
    simp only [sizeSeq] at h
    cases hp : sizeSeq factor n with
    | none => rw [hp] at h; simp at h
    | some p =>
      rw [hp] at h
      exact hundred_le_nextSize p factor s (ih p hp) hf h

/-- The sizes of the sweep by a double greater than one are non-decreasing. -/
theorem sizeSeq_mono (factor : F64) (hd : F64.isDouble factor)
    (hf : F64.le factor F64.one = false) :
    ∀ j i a b, i ≤ j → sizeSeq factor i = some a → sizeSeq factor j = some b → a ≤ b := by
  intro j
  induction j with
  | zero =>
    intro i a b hij ha hb
    have : i = 0 := by omega
    subst this
    rw [ha] at hb
    have : a = b := by simpa using hb
    omega
  | succ j ih =>
    intro i a b hij ha hb
    rcases Nat.eq_or_lt_of_le hij with heq | hlt
    · subst heq
      rw [ha] at hb
      have : a = b := by simpa using hb
      omega
    · simp only [sizeSeq] at hb
      cases hp : sizeSeq factor j with
      | none => rw [hp] at hb; simp at hb
      | some p =>
        rw [hp] at hb
        have h1 := ih i a p (by omega) ha hp
        have h2 := le_nextSize_of_isDouble p factor b hd hf hb
        omega

/-- With a finite factor of at least 1.01 the `i`-th size of the sweep is at
least `100 + i`. -/
theorem add_le_sizeSeq (mf : Nat) (ef : Int) (hf : (101 : ℚ) / 100 ≤ (mf : ℚ) * (2 : ℚ) ^ ef) :
    ∀ i s, sizeSeq (F64.fin false mf ef) i = some s → 100 + i ≤ s := by
  intro i
  induction i with
  | zero =>
    intro s h
    simp only [sizeSeq, Option.some.injEq] at h
    omega
  | succ i ih =>
    intro s h
    simp only [sizeSeq] at h
    cases hp : sizeSeq (F64.fin false mf ef) i with
    | none => rw [hp] at h; simp at h
    | some p =>
      rw [hp] at h
      have h1 := ih p hp
      have h2 := lt_nextSize p mf ef s (by omega) hf h
      omega

/-! ## Facts about conversion and division -/

/-- The conversion `(double) n` of a `uint64_t` is finite, with a relative
error of at most `2 ^ (-53)`. -/
theorem ofU64_spec (n : Nat) (hn : n < 2 ^ 64) :
    ∃ m k : Nat, F64.ofU64 n = F64.fin false m (k : Int) ∧ k ≤ 11 ∧ m ≤ 2 ^ 53 ∧
      (1 ≤ n → 1 ≤ m) ∧
      (n : ℚ) * (1 - 1 / 2 ^ 53) ≤ (m : ℚ) * (2 : ℚ) ^ k ∧
      (m : ℚ) * (2 : ℚ) ^ k ≤ (n : ℚ) * (1 + 1 / 2 ^ 53) := by
  have hbl : bitLength n ≤ 64 := bitLength_le_of_lt n 64 hn
  obtain ⟨h1, h2, h3⟩ := round_normal false n 0 (by simp) (by omega)
  obtain ⟨hm, hpos, _, _⟩ := roundShift_normal n
  refine ⟨roundShift n (bitLength n - 53), bitLength n - 53, ?_, by omega, hm, hpos, ?_, ?_⟩
  · unfold F64.ofU64
    rw [h1, zero_add]
  · simpa using h2
  · simpa using h3

/-- The quotient of two such conversions, the divisor not zero, is finite,
with a relative error of at most `2 ^ (-52)`. -/
theorem div_spec (m1 k1 m2 k2 : Nat) (hm1 : m1 ≤ 2 ^ 53) (hm2 : m2 ≤ 2 ^ 53) (hpos : 1 ≤ m2)
    (hk1 : k1 ≤ 11) (hk2 : k2 ≤ 11) :
    ∃ (m : Nat) (e : Int),
      F64.div (F64.fin false m1 (k1 : Int)) (F64.fin false m2 (k2 : Int)) = F64.fin false m e ∧
      ((m1 : ℚ) * (2 : ℚ) ^ k1) / ((m2 : ℚ) * (2 : ℚ) ^ k2) * (1 - 2 / 2 ^ 53) ≤
        (m : ℚ) * (2 : ℚ) ^ e ∧
      (m : ℚ) * (2 : ℚ) ^ e ≤
        ((m1 : ℚ) * (2 : ℚ) ^ k1) / ((m2 : ℚ) * (2 : ℚ) ^ k2) * (1 + 2 / 2 ^ 53) := by
  have h2 : (2 : ℚ) ≠ 0 := by norm_num
  have hm2ne : m2 ≠ 0 := by omega
  have hbl2 : bitLength m2 ≤ 54 := bitLength_le_of_lt m2 54 (by omega)
  -- the names of the algorithm
  obtain ⟨n, hn⟩ : ∃ n, n = 64 + bitLength m2 := ⟨_, rfl⟩
  obtain ⟨q, hq⟩ : ∃ q, q = (m1 * 2 ^ n) / m2 := ⟨_, rfl⟩
  obtain ⟨st, hst⟩ : ∃ st : Nat, st = if (m1 * 2 ^ n) % m2 = 0 then 0 else 1 := ⟨_, rfl⟩
  obtain ⟨E, hE⟩ : ∃ E : Int, E = (k1 : Int) - (k2 : Int) - (n : Int) - 1 := ⟨_, rfl⟩
  have hdiv : F64.div (F64.fin false m1 (k1 : Int)) (F64.fin false m2 (k2 : Int)) =
      F64.round false (2 * q + st) E := by
    simp only [F64.div, if_neg hm2ne, hq, hst, hE, hn]
    simp
  have hdm := Nat.div_add_mod (m1 * 2 ^ n) m2
  rw [← hq] at hdm
  have hrem : (m1 * 2 ^ n) % m2 < m2 := Nat.mod_lt _ (by omega)
  have hEl : -130 ≤ E := by omega
  have hEu : E + (n : Int) ≤ 10 := by omega
  -- the bound between `(2 q + st) * m2` and `2 * m1 * 2 ^ n`
  have hX1 : (2 * q + st) * m2 ≤ 2 * (m1 * 2 ^ n) + m2 := by
    have : (2 * q + st) * m2 = 2 * (m2 * q) + st * m2 := by ring
    rw [this]
    by_cases h0 : (m1 * 2 ^ n) % m2 = 0
    · rw [if_pos h0] at hst
      subst hst
      omega
    · rw [if_neg h0] at hst
      subst hst
      omega
  have hX2 : 2 * (m1 * 2 ^ n) ≤ (2 * q + st) * m2 + m2 := by
    have : (2 * q + st) * m2 = 2 * (m2 * q) + st * m2 := by ring
    rw [this]
    by_cases h0 : (m1 * 2 ^ n) % m2 = 0
    · rw [if_pos h0] at hst
      subst hst
      omega
    · rw [if_neg h0] at hst
      subst hst
      omega
  have hstle : st ≤ 1 := by
    rw [hst]
    split_ifs <;> omega
  have hpowpos : (0 : ℚ) < (2 : ℚ) ^ k2 := by positivity
  have hm2q : (0 : ℚ) < (m2 : ℚ) := by exact_mod_cast hpos
  -- the exact quotient in terms of `2 * m1 * 2 ^ n / m2`
  have hx : ((m1 : ℚ) * (2 : ℚ) ^ k1) / ((m2 : ℚ) * (2 : ℚ) ^ k2) =
      (2 * ((m1 : ℚ) * (2 : ℚ) ^ n)) / (m2 : ℚ) * (2 : ℚ) ^ E := by
    have hE' : (2 : ℚ) ^ E = (2 : ℚ) ^ k1 / ((2 : ℚ) ^ k2 * (2 : ℚ) ^ n * 2) := by
      rw [hE, zpow_sub₀ h2, zpow_sub₀ h2, zpow_sub₀ h2, zpow_natCast, zpow_natCast,
        zpow_natCast, zpow_one]
      field_simp
    rw [hE']
    field_simp
    ring
  rcases Nat.eq_zero_or_pos m1 with hz | hm1pos
  · -- a zero dividend
    subst hz
    have hq0 : q = 0 := by rw [hq]; simp
    have hst0 : st = 0 := by rw [hst]; simp
    subst hq0 hst0
    obtain ⟨hr, _, _⟩ := round_normal false 0 E (by rw [bitLength_zero]; simp; omega)
      (by rw [bitLength_zero]; simp; omega)
    rw [bitLength_zero, roundShift_zero] at hr
    refine ⟨0, _, by rw [hdiv]; simpa using hr, ?_, ?_⟩ <;> simp
  · -- the quotient has more than 64 bits
    have hq64 : 2 ^ 64 ≤ q := by
      rw [hq, Nat.le_div_iff_mul_le (by omega)]
      have h1 : m2 < 2 ^ bitLength m2 := lt_two_pow_bitLength m2
      have h3 : 2 ^ 64 * 2 ^ bitLength m2 = 2 ^ n := by rw [hn, pow_add]
      have h4 : 2 ^ 64 * m2 ≤ 2 ^ 64 * 2 ^ bitLength m2 := Nat.mul_le_mul_left _ (le_of_lt h1)
      have h5 : 1 * 2 ^ n ≤ m1 * 2 ^ n := Nat.mul_le_mul_right _ hm1pos
      omega
    have hXlow : 2 ^ 65 ≤ 2 * q + st := by omega
    have hqup : q ≤ 2 ^ 53 * 2 ^ n := by
      have h1 : q ≤ m1 * 2 ^ n := by rw [hq]; exact Nat.div_le_self _ _
      have h2' : m1 * 2 ^ n ≤ 2 ^ 53 * 2 ^ n := Nat.mul_le_mul_right _ hm1
      omega
    have hXup : 2 * q + st < 2 ^ (55 + n) := by
      have h1 : 2 ^ (55 + n) = 4 * (2 ^ 53 * 2 ^ n) := by rw [pow_add]; ring
      have h3 : 1 ≤ 2 ^ 53 * 2 ^ n := Nat.one_le_iff_ne_zero.2 (by positivity)
      omega
    have hblX : bitLength (2 * q + st) ≤ 55 + n := bitLength_le_of_lt _ _ hXup
    have hblX' : 66 ≤ bitLength (2 * q + st) := by
      by_contra hc
      have h1 := lt_two_pow_bitLength (2 * q + st)
      have h3 : 2 ^ bitLength (2 * q + st) ≤ 2 ^ 65 :=
        Nat.pow_le_pow_right (by norm_num) (by omega)
      omega
    obtain ⟨hr, hlo, hhi⟩ := round_normal false (2 * q + st) E
      (by
        have : Int.toNat (-1074 - E) = 0 := by omega
        omega)
      (by omega)
    refine ⟨_, _, by rw [hdiv]; exact hr, ?_, ?_⟩
    · -- the lower bound
      refine le_trans ?_ hlo
      rw [hx]
      have hUpos : (0 : ℚ) < (2 : ℚ) ^ E := by positivity
      have hXq : (2 * ((m1 : ℚ) * (2 : ℚ) ^ n)) / (m2 : ℚ) ≤ ((2 * q + st : ℕ) : ℚ) + 1 := by
        rw [div_le_iff₀ hm2q]
        have : ((2 * (m1 * 2 ^ n) : ℕ) : ℚ) ≤ (((2 * q + st) * m2 + m2 : ℕ) : ℚ) := by
          exact_mod_cast hX2
        push_cast at this ⊢
        linarith
      have hX65 : ((2 : ℚ) ^ 65) ≤ ((2 * q + st : ℕ) : ℚ) := by exact_mod_cast hXlow
      have hkey : (2 * ((m1 : ℚ) * (2 : ℚ) ^ n)) / (m2 : ℚ) * (1 - 2 / 2 ^ 53) ≤
          ((2 * q + st : ℕ) : ℚ) * (1 - 1 / 2 ^ 53) := by
        have hnn : (0 : ℚ) ≤ (2 * ((m1 : ℚ) * (2 : ℚ) ^ n)) / (m2 : ℚ) := by positivity
        nlinarith [hXq, hX65, hnn]
      calc (2 * ((m1 : ℚ) * (2 : ℚ) ^ n)) / (m2 : ℚ) * (2 : ℚ) ^ E * (1 - 2 / 2 ^ 53)
          = (2 * ((m1 : ℚ) * (2 : ℚ) ^ n)) / (m2 : ℚ) * (1 - 2 / 2 ^ 53) * (2 : ℚ) ^ E := by ring
        _ ≤ ((2 * q + st : ℕ) : ℚ) * (1 - 1 / 2 ^ 53) * (2 : ℚ) ^ E :=
            mul_le_mul_of_nonneg_right hkey (le_of_lt hUpos)
        _ = _ := by ring
    · -- the upper bound
      refine le_trans hhi ?_
      rw [hx]
      have hUpos : (0 : ℚ) < (2 : ℚ) ^ E := by positivity
      have hXq : ((2 * q + st : ℕ) : ℚ) ≤ (2 * ((m1 : ℚ) * (2 : ℚ) ^ n)) / (m2 : ℚ) + 1 := by
        rw [← sub_le_iff_le_add, le_div_iff₀ hm2q]
        have : (((2 * q + st) * m2 : ℕ) : ℚ) ≤ ((2 * (m1 * 2 ^ n) + m2 : ℕ) : ℚ) := by
          exact_mod_cast hX1
        push_cast at this ⊢
        linarith
      have hq65 : ((2 : ℚ) ^ 65) ≤ (2 * ((m1 : ℚ) * (2 : ℚ) ^ n)) / (m2 : ℚ) := by
        rw [le_div_iff₀ hm2q]
        have h1 : 2 ^ 65 * m2 ≤ 2 * (m1 * 2 ^ n) := by
          have : 2 ^ 64 * m2 ≤ m2 * q := by
            rw [Nat.mul_comm m2 q]
            exact Nat.mul_le_mul_right _ hq64
          omega
        have : ((2 ^ 65 * m2 : ℕ) : ℚ) ≤ ((2 * (m1 * 2 ^ n) : ℕ) : ℚ) := by exact_mod_cast h1
        push_cast at this
        linarith
      have hkey : ((2 * q + st : ℕ) : ℚ) * (1 + 1 / 2 ^ 53) ≤
          (2 * ((m1 : ℚ) * (2 : ℚ) ^ n)) / (m2 : ℚ) * (1 + 2 / 2 ^ 53) := by
        nlinarith [hXq, hq65]
      calc ((2 * q + st : ℕ) : ℚ) * (2 : ℚ) ^ E * (1 + 1 / 2 ^ 53)
          = ((2 * q + st : ℕ) : ℚ) * (1 + 1 / 2 ^ 53) * (2 : ℚ) ^ E := by ring
        _ ≤ (2 * ((m1 : ℚ) * (2 : ℚ) ^ n)) / (m2 : ℚ) * (1 + 2 / 2 ^ 53) * (2 : ℚ) ^ E :=
            mul_le_mul_of_nonneg_right hkey (le_of_lt hUpos)
        _ = _ := by ring

/-- The double quotient `(double) d / (double) R` of two `uint64_t` values,
`R` not zero, is a finite non-negative double within a relative error of
`2 ^ (-50)` of the exact quotient `d / R`. -/
theorem quotient_spec (d R : Nat) (hd : d < 2 ^ 64) (hR : R < 2 ^ 64) (hR1 : 1 ≤ R) :
    ∃ (m : Nat) (e : Int), F64.div (F64.ofU64 d) (F64.ofU64 R) = F64.fin false m e ∧
      |(m : ℚ) * (2 : ℚ) ^ e - (d : ℚ) / (R : ℚ)| ≤ (d : ℚ) / (R : ℚ) / 2 ^ 50 := by
  obtain ⟨m1, k1, h1, hk1, hm1, _, hlo1, hhi1⟩ := ofU64_spec d hd
  obtain ⟨m2, k2, h2, hk2, hm2, hpos2, hlo2, hhi2⟩ := ofU64_spec R hR
  obtain ⟨m, e, hdiv, hlo, hhi⟩ := div_spec m1 k1 m2 k2 hm1 hm2 (hpos2 hR1) hk1 hk2
  refine ⟨m, e, by rw [h1, h2, hdiv], ?_⟩
  have hRq : (1 : ℚ) ≤ (R : ℚ) := by exact_mod_cast hR1
  have hRpos : (0 : ℚ) < (R : ℚ) := by linarith
  have hdq : (0 : ℚ) ≤ (d : ℚ) := by positivity
  have hc : (0 : ℚ) ≤ (d : ℚ) / (R : ℚ) := by positivity
  have hden1 : (0 : ℚ) < (R : ℚ) * (1 - 1 / 2 ^ 53) := by
    apply mul_pos hRpos
    norm_num
  have hden2 : (0 : ℚ) < (R : ℚ) * (1 + 1 / 2 ^ 53) := by
    apply mul_pos hRpos
    norm_num
  have hv2 : (0 : ℚ) < (m2 : ℚ) * (2 : ℚ) ^ k2 := lt_of_lt_of_le hden1 hlo2
  have hv1 : (0 : ℚ) ≤ (m1 : ℚ) * (2 : ℚ) ^ k1 := by positivity
  -- the quotient of the converted operands
  have hxhi : ((m1 : ℚ) * (2 : ℚ) ^ k1) / ((m2 : ℚ) * (2 : ℚ) ^ k2) ≤
      (d : ℚ) / (R : ℚ) * ((1 + 1 / 2 ^ 53) / (1 - 1 / 2 ^ 53)) := by
    have h3 : ((m1 : ℚ) * (2 : ℚ) ^ k1) / ((m2 : ℚ) * (2 : ℚ) ^ k2) ≤
        ((d : ℚ) * (1 + 1 / 2 ^ 53)) / ((R : ℚ) * (1 - 1 / 2 ^ 53)) :=
      div_le_div₀ (by positivity) hhi1 hden1 hlo2
    have h4 : ((d : ℚ) * (1 + 1 / 2 ^ 53)) / ((R : ℚ) * (1 - 1 / 2 ^ 53)) =
        (d : ℚ) / (R : ℚ) * ((1 + 1 / 2 ^ 53) / (1 - 1 / 2 ^ 53)) := by
      rw [mul_div_mul_comm]
    rw [h4] at h3
    exact h3
  have hxlo : (d : ℚ) / (R : ℚ) * ((1 - 1 / 2 ^ 53) / (1 + 1 / 2 ^ 53)) ≤
      ((m1 : ℚ) * (2 : ℚ) ^ k1) / ((m2 : ℚ) * (2 : ℚ) ^ k2) := by
    have h3 : ((d : ℚ) * (1 - 1 / 2 ^ 53)) / ((R : ℚ) * (1 + 1 / 2 ^ 53)) ≤
        ((m1 : ℚ) * (2 : ℚ) ^ k1) / ((m2 : ℚ) * (2 : ℚ) ^ k2) :=
      div_le_div₀ hv1 hlo1 hv2 hhi2
    have h4 : ((d : ℚ) * (1 - 1 / 2 ^ 53)) / ((R : ℚ) * (1 + 1 / 2 ^ 53)) =
        (d : ℚ) / (R : ℚ) * ((1 - 1 / 2 ^ 53) / (1 + 1 / 2 ^ 53)) := by
      rw [mul_div_mul_comm]
    rw [h4] at h3
    exact h3
  have hx0 : (0 : ℚ) ≤ ((m1 : ℚ) * (2 : ℚ) ^ k1) / ((m2 : ℚ) * (2 : ℚ) ^ k2) := by positivity
  have hnum1 : ((1 : ℚ) + 1 / 2 ^ 53) / (1 - 1 / 2 ^ 53) * (1 + 2 / 2 ^ 53) ≤ 1 + 1 / 2 ^ 50 := by
    norm_num
  have hnum2 : (1 : ℚ) - 1 / 2 ^ 50 ≤ (1 - 1 / 2 ^ 53) / (1 + 1 / 2 ^ 53) * (1 - 2 / 2 ^ 53) := by
    norm_num
  rw [abs_le]
  constructor
  · -- the lower bound
    have h5 : (d : ℚ) / (R : ℚ) * ((1 - 1 / 2 ^ 53) / (1 + 1 / 2 ^ 53)) * (1 - 2 / 2 ^ 53) ≤
        (m : ℚ) * (2 : ℚ) ^ e :=
      le_trans (mul_le_mul_of_nonneg_right hxlo (by norm_num)) hlo
    have h6 : (d : ℚ) / (R : ℚ) * (1 - 1 / 2 ^ 50) ≤
        (d : ℚ) / (R : ℚ) * ((1 - 1 / 2 ^ 53) / (1 + 1 / 2 ^ 53) * (1 - 2 / 2 ^ 53)) :=
      mul_le_mul_of_nonneg_left hnum2 hc
    have h7 : (d : ℚ) / (R : ℚ) * (1 - 1 / 2 ^ 50) =
        (d : ℚ) / (R : ℚ) - (d : ℚ) / (R : ℚ) / 2 ^ 50 := by ring
    have h8 : (d : ℚ) / (R : ℚ) * ((1 - 1 / 2 ^ 53) / (1 + 1 / 2 ^ 53) * (1 - 2 / 2 ^ 53)) =
        (d : ℚ) / (R : ℚ) * ((1 - 1 / 2 ^ 53) / (1 + 1 / 2 ^ 53)) * (1 - 2 / 2 ^ 53) := by ring
    linarith
  · -- the upper bound
    have h5 : (m : ℚ) * (2 : ℚ) ^ e ≤
        (d : ℚ) / (R : ℚ) * ((1 + 1 / 2 ^ 53) / (1 - 1 / 2 ^ 53)) * (1 + 2 / 2 ^ 53) :=
      le_trans hhi (mul_le_mul_of_nonneg_right hxhi (by norm_num))
    have h6 : (d : ℚ) / (R : ℚ) * ((1 + 1 / 2 ^ 53) / (1 - 1 / 2 ^ 53) * (1 + 2 / 2 ^ 53)) ≤
        (d : ℚ) / (R : ℚ) * (1 + 1 / 2 ^ 50) :=
      mul_le_mul_of_nonneg_left hnum1 hc
    have h7 : (d : ℚ) / (R : ℚ) * (1 + 1 / 2 ^ 50) =
        (d : ℚ) / (R : ℚ) + (d : ℚ) / (R : ℚ) / 2 ^ 50 := by ring
    have h8 : (d : ℚ) / (R : ℚ) * ((1 + 1 / 2 ^ 53) / (1 - 1 / 2 ^ 53) * (1 + 2 / 2 ^ 53)) =
        (d : ℚ) / (R : ℚ) * ((1 + 1 / 2 ^ 53) / (1 - 1 / 2 ^ 53)) * (1 + 2 / 2 ^ 53) := by ring
    linarith

theorem nanosectime_lt (t : Timespec) : nanosectime t < 2 ^ 64 := by
  unfold nanosectime
  have h1 : (0 : Int) ≤ (t.tv_sec * 1000000000 + t.tv_nsec) % 2 ^ 64 :=
    Int.emod_nonneg _ (by norm_num)
  have h2 : (t.tv_sec * 1000000000 + t.tv_nsec) % 2 ^ 64 < 2 ^ 64 :=
    Int.emod_lt_of_pos _ (by norm_num)
  omega

/-! ## Facts about the loops of the sequential measurement -/

theorem baselineLoop_isSome (arr_size zero : Nat) (h : arr_size ≠ 0) :
    ∀ n rnd visited, ∃ r, baselineLoop arr_size zero n rnd visited = some r := by
  intro n
  induction n with
  | zero => intro rnd visited; exact ⟨_, rfl⟩
  | succ n ih =>
    intro rnd visited
    simp only [baselineLoop, if_neg h]
    exact ih _ _

theorem accessLoop_isSome (arr : List Nat) (arr_size zero : Nat) (h : arr_size ≠ 0)
    (hlen : arr_size ≤ arr.length) :
    ∀ n rnd visited, ∃ r, accessLoop arr arr_size zero n rnd visited = some r := by
  intro n
  induction n with
  | zero => intro rnd visited; exact ⟨_, rfl⟩
  | succ n ih =>
    intro rnd visited
    have hidx : rnd % arr_size < arr.length :=
      lt_of_lt_of_le (Nat.mod_lt _ (Nat.pos_of_ne_zero h)) hlen
    simp only [accessLoop, if_neg h, List.getElem?_eq_getElem hidx]
    exact ih _ _

theorem baselineLoop_length (arr_size zero : Nat) :
    ∀ n rnd visited r, baselineLoop arr_size zero n rnd visited = some r →
      r.2.length = visited.length + n := by
  intro n
  induction n with
  | zero =>
    intro rnd visited r h
    simp only [baselineLoop, Option.some.injEq] at h
    subst h
    rfl
  | succ n ih =>
    intro rnd visited r h
    simp only [baselineLoop] at h
    split_ifs at h with h0
    have := ih _ _ r h
    simp only [List.length_append, List.length_singleton] at this
    omega

theorem accessLoop_length (arr : List Nat) (arr_size zero : Nat) :
    ∀ n rnd visited r, accessLoop arr arr_size zero n rnd visited = some r →
      r.2.length = visited.length + n := by
  intro n
  induction n with
  | zero =>
    intro rnd visited r h
    simp only [accessLoop, Option.some.injEq] at h
    subst h
    rfl
  | succ n ih =>
    intro rnd visited r h
    simp only [accessLoop] at h
    split_ifs at h with h0
    cases hv : arr[rnd % arr_size]? with
    | none => rw [hv] at h; simp at h
    | some v =>
      rw [hv] at h
      have := ih _ _ r h
      simp only [List.length_append, List.length_singleton] at this
      omega

theorem measure_sequential_latency_isSome (repeat_ : Nat) (arr : List Nat) (arr_size zero : Nat)
    (clk : Readings) (h : arr_size ≠ 0) (hlen : arr_size ≤ arr.length) :
    ∃ m, measure_sequential_latency repeat_ arr arr_size zero clk = some m := by
  unfold measure_sequential_latency measure_sequential_latency_run
  obtain ⟨r1, h1⟩ := baselineLoop_isSome arr_size zero h
    (if arr_size > repeat_ then arr_size else repeat_) 12345 []
  obtain ⟨r2, h2⟩ := accessLoop_isSome arr arr_size zero h hlen
    (if arr_size > repeat_ then arr_size else repeat_) ((r1.1 &&& zero) ^^^ 12345) []
  simp only [h1, h2]
  exact ⟨_, rfl⟩

theorem baselineLoop_zero (arr_size : Nat) (h : arr_size ≠ 0) :
    ∀ n rnd visited, rnd < 2 ^ 64 →
      baselineLoop arr_size 0 n rnd visited =
        some ((rnd + n) % 2 ^ 64,
          visited ++ (List.range n).map (fun i => (rnd + i) % 2 ^ 64 % arr_size)) := by
  intro n
  induction n with
  | zero =>
    intro rnd visited hr
    simp only [baselineLoop, List.range_zero, List.map_nil, List.append_nil, Nat.add_zero,
      Nat.mod_eq_of_lt hr]
  | succ n ih =>
    intro rnd visited hr
    simp only [baselineLoop, if_neg h, Nat.and_zero, Nat.xor_zero]
    rw [ih _ _ (Nat.mod_lt _ (by norm_num))]
    have h1 : ((rnd + 1) % 2 ^ 64 + n) % 2 ^ 64 = (rnd + (n + 1)) % 2 ^ 64 := by omega
    have h2 : ∀ i, ((rnd + 1) % 2 ^ 64 + i) % 2 ^ 64 = (rnd + (i + 1)) % 2 ^ 64 := by
      intro i; omega
    have h3 : rnd % arr_size = (rnd + 0) % 2 ^ 64 % arr_size := by
      rw [Nat.add_zero, Nat.mod_eq_of_lt hr]
    rw [h1, List.range_succ_eq_map, List.map_cons, List.map_map, List.append_assoc,
      List.singleton_append, ← h3]
    simp only [h2, Function.comp_def, Nat.succ_eq_add_one, Nat.add_zero, Nat.mod_eq_of_lt hr]

theorem accessLoop_zero (arr : List Nat) (arr_size : Nat) (h : arr_size ≠ 0)
    (hlen : arr_size ≤ arr.length) :
    ∀ n rnd visited, rnd < 2 ^ 64 →
      accessLoop arr arr_size 0 n rnd visited =
        some ((rnd + n) % 2 ^ 64,
          visited ++ (List.range n).map (fun i => (rnd + i) % 2 ^ 64 % arr_size)) := by
  intro n
  induction n with
  | zero =>
    intro rnd visited hr
    simp only [accessLoop, List.range_zero, List.map_nil, List.append_nil, Nat.add_zero,
      Nat.mod_eq_of_lt hr]
  | succ n ih =>
    intro rnd visited hr
    have hidx : rnd % arr_size < arr.length :=
      lt_of_lt_of_le (Nat.mod_lt _ (Nat.pos_of_ne_zero h)) hlen
    simp only [accessLoop, if_neg h, List.getElem?_eq_getElem hidx, Nat.and_zero, Nat.xor_zero]
    rw [ih _ _ (Nat.mod_lt _ (by norm_num))]
    have h1 : ((rnd + 1) % 2 ^ 64 + n) % 2 ^ 64 = (rnd + (n + 1)) % 2 ^ 64 := by omega
    have h2 : ∀ i, ((rnd + 1) % 2 ^ 64 + i) % 2 ^ 64 = (rnd + (i + 1)) % 2 ^ 64 := by
      intro i; omega
    have h3 : rnd % arr_size = (rnd + 0) % 2 ^ 64 % arr_size := by
      rw [Nat.add_zero, Nat.mod_eq_of_lt hr]
    rw [h1, List.range_succ_eq_map, List.map_cons, List.map_map, List.append_assoc,
      List.singleton_append, ← h3]
    simp only [h2, Function.comp_def, Nat.succ_eq_add_one, Nat.add_zero, Nat.mod_eq_of_lt hr]

/-- With `zero = 0`, a call of `measure_sequential_latency` on an array of at
least `arr_size ≥ 1` elements returns, and both loops compute the indices
`(12345 + i) mod 2^64 mod arr_size` for `i < max repeat arr_size`. -/
theorem measure_sequential_latency_run_zero (repeat_ : Nat) (arr : List Nat) (arr_size : Nat)
    (clk : Readings) (h : 1 ≤ arr_size) (hlen : arr_size ≤ arr.length) :
    measure_sequential_latency_run repeat_ arr arr_size 0 clk =
      some
        { result :=
            { baseline :=
                F64.div (F64.ofU64 ((nanosectime clk.t1 + 2 ^ 64 - nanosectime clk.t0) % 2 ^ 64))
                  (F64.ofU64 (max repeat_ arr_size))
              access_time :=
                F64.div (F64.ofU64 ((nanosectime clk.t3 + 2 ^ 64 - nanosectime clk.t2) % 2 ^ 64))
                  (F64.ofU64 (max repeat_ arr_size))
              rnd := (12345 + max repeat_ arr_size) % 2 ^ 64 }
          baselineIndices :=
            (List.range (max repeat_ arr_size)).map (fun i => (12345 + i) % 2 ^ 64 % arr_size)
          accessIndices :=
            (List.range (max repeat_ arr_size)).map (fun i => (12345 + i) % 2 ^ 64 % arr_size) } := by
  have hne : arr_size ≠ 0 := by omega
  have hreps : (if arr_size > repeat_ then arr_size else repeat_) = max repeat_ arr_size := by
    split_ifs with hc
    · exact (max_eq_right (le_of_lt hc)).symm
    · exact (max_eq_left (by omega)).symm
  unfold measure_sequential_latency_run
  simp only [hreps]
  rw [baselineLoop_zero arr_size hne _ 12345 [] (by norm_num)]
  simp only [Nat.and_zero, Nat.zero_xor]
  rw [accessLoop_zero arr arr_size hne hlen _ 12345 [] (by norm_num)]
  simp

/-! ## Facts about the sweep -/

theorem recordOf_isSome (env : Env) (repeat_ zero k s : Nat) (hs : 1 ≤ s) :
    ∃ r, recordOf env repeat_ zero k s = some r ∧ r.array_size_in_memory = s := by
  obtain ⟨m, hm⟩ := measure_sequential_latency_isSome repeat_ (List.replicate s 0)
    (s / sizeof_array_element_t) zero (env.clock k)
    (by simp [sizeof_array_element_t]; omega) (by simp [sizeof_array_element_t])
  unfold recordOf
  rw [hm]
  exact ⟨_, rfl, rfl⟩

theorem sweep_zero (env : Env) (max_size : Nat) (factor : F64) (repeat_ zero k s : Nat)
    (out : List Record) : sweep env max_size factor repeat_ zero 0 k s out = none := rfl

theorem sweep_succ (env : Env) (max_size : Nat) (factor : F64) (repeat_ zero fuel k s : Nat)
    (out : List Record) : sweep env max_size factor repeat_ zero (fuel + 1) k s out =
    if s ≤ max_size then
      if env.calloc k s then
        match measure_sequential_latency repeat_ (List.replicate s 0)
            (s / sizeof_array_element_t) zero (env.clock k) with
        | none => some { exit := Exit.undefinedBehaviour, stdout := out, stderr := [] }
        | some sequential_measurement =>
          match nextSize s factor with
          | none =>
            some
              { exit := Exit.undefinedBehaviour
                stdout := out ++
                  [{ array_size_in_memory := s
                     random_offset :=
                       F64.sub (env.measure_latency k repeat_ (List.replicate s 0) (s / sizeof_array_element_t) zero).access_time (env.measure_latency k repeat_ (List.replicate s 0) (s / sizeof_array_element_t) zero).baseline
                     sequential_offset :=
                       F64.sub sequential_measurement.access_time sequential_measurement.baseline }]
                stderr := [] }
          | some next =>
            sweep env max_size factor repeat_ zero fuel (k + 1) next
              (out ++
                [{ array_size_in_memory := s
                   random_offset :=
                     F64.sub (env.measure_latency k repeat_ (List.replicate s 0) (s / sizeof_array_element_t) zero).access_time (env.measure_latency k repeat_ (List.replicate s 0) (s / sizeof_array_element_t) zero).baseline
                   sequential_offset :=
                     F64.sub sequential_measurement.access_time sequential_measurement.baseline }])
      else
        some
          { exit := Exit.code (-1), stdout := out
            stderr := [Diag.allocationFailed s] }
    else some { exit := Exit.code 0, stdout := out, stderr := [] } := rfl

theorem sweep_step (env : Env) (max_size : Nat) (factor : F64) (repeat_ zero fuel k s : Nat)
    (out : List Record) (r : Record) (hs : s ≤ max_size) (hc : env.calloc k s = true)
    (hr : recordOf env repeat_ zero k s = some r) :
    sweep env max_size factor repeat_ zero (fuel + 1) k s out =
      match nextSize s factor with
      | none => some { exit := Exit.undefinedBehaviour, stdout := out ++ [r], stderr := [] }
      | some next => sweep env max_size factor repeat_ zero fuel (k + 1) next (out ++ [r]) := by
  unfold recordOf at hr
  rw [sweep_succ]
  simp only [if_pos hs, hc, if_true]
  cases hm : measure_sequential_latency repeat_ (List.replicate s 0)
      (s / sizeof_array_element_t) zero (env.clock k) with
  | none => rw [hm] at hr; simp at hr
  | some sm =>
    rw [hm] at hr
    simp only [Option.map_some', Option.some.injEq] at hr
    subst hr
    cases nextSize s factor <;> rfl

/-- As long as the sizes stay within `max_size` and the allocations succeed,
the loop runs on: after `n` iterations it is at step `n`, at the `n`-th size,
with the records of the first `n` steps printed. -/
theorem sweep_reach (env : Env) (max_size : Nat) (factor : F64) (repeat_ zero : Nat)
    (hf : F64.le factor F64.one = false) :
    ∀ n sn, (∀ i, i < n → ∃ s, sizeSeq factor i = some s ∧ s ≤ max_size ∧ env.calloc i s = true) →
      sizeSeq factor n = some sn →
      ∀ fuel, sweep env max_size factor repeat_ zero (fuel + n) 0 100 [] =
        sweep env max_size factor repeat_ zero fuel n sn
          (recordsBefore env factor repeat_ zero n) := by
  intro n
  induction n with
  | zero =>
    intro sn _ hsn fuel
    simp only [sizeSeq, Option.some.injEq] at hsn
    subst hsn
    rfl
  | succ n ih =>
    intro sn hgood hsn fuel
    obtain ⟨s, hs, hle, hc⟩ := hgood n (Nat.lt_succ_self n)
    have hgood' : ∀ i, i < n → ∃ s, sizeSeq factor i = some s ∧ s ≤ max_size ∧
        env.calloc i s = true := fun i hi => hgood i (Nat.lt_succ_of_lt hi)
    have h1 := ih s hgood' hs (fuel + 1)
    have hfuel : fuel + (n + 1) = fuel + 1 + n := by omega
    rw [hfuel, h1]
    obtain ⟨r, hr, _⟩ := recordOf_isSome env repeat_ zero n s
      (le_trans (by norm_num) (hundred_le_sizeSeq factor hf n s hs))
    rw [sweep_step env max_size factor repeat_ zero fuel n s _ r hle hc hr]
    have hnext : nextSize s factor = some sn := by
      simp only [sizeSeq, hs, Option.some_bind] at hsn
      exact hsn
    rw [hnext]
    simp only [recordsBefore, hs, Option.some_bind, hr, Option.toList]

/-- The sizes of the records of the first `n` steps are the first `n` sizes of
the sweep. -/
theorem recordsBefore_sizes (env : Env) (factor : F64) (repeat_ zero : Nat)
    (hf : F64.le factor F64.one = false) :
    ∀ n, (∀ i, i < n → ∃ s, sizeSeq factor i = some s) →
      (recordsBefore env factor repeat_ zero n).map (fun r => some r.array_size_in_memory) =
        (List.range n).map (sizeSeq factor) := by
  intro n
  induction n with
  | zero => intro _; rfl
  | succ n ih =>
    intro hdef
    obtain ⟨s, hs⟩ := hdef n (Nat.lt_succ_self n)
    obtain ⟨r, hr, hsize⟩ := recordOf_isSome env repeat_ zero n s
      (le_trans (by norm_num) (hundred_le_sizeSeq factor hf n s hs))
    simp only [recordsBefore, hs, Option.some_bind, hr, Option.toList, List.map_append,
      List.map_cons, List.map_nil, List.range_succ, hsize]
    rw [ih (fun i hi => hdef i (Nat.lt_succ_of_lt hi))]

theorem recordsBefore_calloc (env : Env) (calloc2 : Nat → Nat → Bool) (factor : F64)
    (repeat_ zero : Nat) :
    ∀ n, recordsBefore { env with calloc := calloc2 } factor repeat_ zero n =
      recordsBefore env factor repeat_ zero n := by
  intro n
  induction n with
  | zero => rfl
  | succ n ih =>
    simp only [recordsBefore, ih]
    rfl

theorem recordsBefore_prefix (env : Env) (factor : F64) (repeat_ zero k : Nat) :
    ∀ n, k ≤ n → recordsBefore env factor repeat_ zero k <+: recordsBefore env factor repeat_ zero n := by
  intro n
  induction n with
  | zero =>
    intro h
    have : k = 0 := by omega
    subst this
    exact List.prefix_refl _
  | succ n ih =>
    intro h
    rcases Nat.eq_or_lt_of_le h with heq | hlt
    · subst heq
      exact List.prefix_refl _
    · exact (ih (by omega)).trans (by simp only [recordsBefore]; exact List.prefix_append _ _)

theorem sweep_stderr (env : Env) (max_size : Nat) (factor : F64) (repeat_ zero : Nat) :
    ∀ fuel k s out r, sweep env max_size factor repeat_ zero fuel k s out = some r →
      r.stderr = [] ∨ ∃ size, r.stderr = [Diag.allocationFailed size] := by
  intro fuel
  induction fuel with
  | zero => intro k s out r h; simp [sweep_zero] at h
  | succ fuel ih =>
    intro k s out r h
    rw [sweep_succ] at h
    split_ifs at h with h1 h2
    · cases hm : measure_sequential_latency repeat_ (List.replicate s 0)
          (s / sizeof_array_element_t) zero (env.clock k) with
      | none =>
        rw [hm] at h
        simp only [Option.some.injEq] at h
        subst h
        exact Or.inl rfl
      | some sm =>
        rw [hm] at h
        cases hn : nextSize s factor with
        | none =>
          rw [hn] at h
          simp only [Option.some.injEq] at h
          subst h
          exact Or.inl rfl
        | some next =>
          rw [hn] at h
          exact ih _ _ _ _ h
    · simp only [Option.some.injEq] at h
      subst h
      exact Or.inr ⟨s, rfl⟩
    · simp only [Option.some.injEq] at h
      subst h
      exact Or.inl rfl

theorem main_valid (env : Env) (fuel max_size : Nat) (factor : F64) (repeat_ : Nat)
    (hmax : 100 ≤ max_size) (hfac : F64.le factor F64.one = false) (hrep : 0 < repeat_) :
    main env fuel 4 max_size factor repeat_ =
      sweep env max_size factor repeat_ (zeroOf env.t_dummy) fuel 0 100 [] := by
  unfold main
  rw [if_neg (by simp), if_neg]
  rw [hfac]
  simp
  omega

/-- The run of `main` on a valid input whose sweep reaches step `k` with every
allocation before it successful, when the loop condition is evaluated with
`fuel + 1` evaluations left at step `k`. -/
theorem main_reach (env : Env) (max_size : Nat) (factor : F64) (repeat_ : Nat)
    (hmax : 100 ≤ max_size) (hfac : F64.le factor F64.one = false) (hrep : 0 < repeat_)
    (k sk : Nat)
    (hsteps : ∀ i, i < k →
      ∃ s, sizeSeq factor i = some s ∧ s ≤ max_size ∧ env.calloc i s = true)
    (hk : sizeSeq factor k = some sk) (fuel : Nat) :
    main env (fuel + k) 4 max_size factor repeat_ =
      sweep env max_size factor repeat_ (zeroOf env.t_dummy) fuel k sk
        (recordsBefore env factor repeat_ (zeroOf env.t_dummy) k) := by
  rw [main_valid env _ max_size factor repeat_ hmax hfac hrep]
  exact sweep_reach env max_size factor repeat_ _ hfac k sk hsteps hk fuel

/-- The run stops at the first step `k` whose size is undefined, exceeds
`max_size` or fails to be allocated: the result is the same for every amount
of fuel above `k`, and the standard output holds the records of the steps
before `j ≤ k`. -/
theorem main_stops (env : Env) (max_size : Nat) (factor : F64) (repeat_ : Nat)
    (hmax : 100 ≤ max_size) (hfac : F64.le factor F64.one = false) (hrep : 0 < repeat_)
    (k : Nat)
    (hsteps : ∀ i, i < k →
      ∃ s, sizeSeq factor i = some s ∧ s ≤ max_size ∧ env.calloc i s = true)
    (hstop : ¬ ∃ s, sizeSeq factor k = some s ∧ s ≤ max_size ∧ env.calloc k s = true) :
    ∃ r j, j ≤ k ∧ (0 < k → 1 ≤ j) ∧
      (∀ fuel, k + 1 ≤ fuel → main env fuel 4 max_size factor repeat_ = some r) ∧
      r.stdout.map (fun rec => some rec.array_size_in_memory) =
        (List.range j).map (sizeSeq factor) ∧
      (r.exit = Exit.code 0 ∨ r.exit = Exit.code (-1) ∨ r.exit = Exit.undefinedBehaviour) := by
  have hsizes := fun j (hj : j ≤ k) =>
    recordsBefore_sizes env factor repeat_ (zeroOf env.t_dummy) hfac j
      (fun i hi => (hsteps i (by omega)).imp fun s hs => hs.1)
  cases hk : sizeSeq factor k with
  | some sk =>
    by_cases hle : sk ≤ max_size
    · have hc : env.calloc k sk = false := by
        cases hcc : env.calloc k sk
        · rfl
        · exact absurd ⟨sk, hk, hle, hcc⟩ hstop
      refine ⟨{ exit := Exit.code (-1)
                stdout := recordsBefore env factor repeat_ (zeroOf env.t_dummy) k
                stderr := [Diag.allocationFailed sk] }, k, le_refl k, fun h => h,
        fun fuel hfuel => ?_, hsizes k (le_refl k), Or.inr (Or.inl rfl)⟩
      obtain ⟨f, rfl⟩ : ∃ f, fuel = (f + 1) + k := ⟨fuel - k - 1, by omega⟩
      rw [main_reach env max_size factor repeat_ hmax hfac hrep k sk hsteps hk (f + 1),
        sweep_succ, if_pos hle, hc]
      simp only [Bool.false_eq_true, if_false]
    · refine ⟨{ exit := Exit.code 0
                stdout := recordsBefore env factor repeat_ (zeroOf env.t_dummy) k
                stderr := [] }, k, le_refl k, fun h => h,
        fun fuel hfuel => ?_, hsizes k (le_refl k), Or.inl rfl⟩
      obtain ⟨f, rfl⟩ : ∃ f, fuel = (f + 1) + k := ⟨fuel - k - 1, by omega⟩
      rw [main_reach env max_size factor repeat_ hmax hfac hrep k sk hsteps hk (f + 1),
        sweep_succ, if_neg hle]
  | none =>
    cases k with
    | zero => simp [sizeSeq] at hk
    | succ k' =>
      obtain ⟨s, hs, hle, hc⟩ := hsteps k' (Nat.lt_succ_self k')
      have hnext : nextSize s factor = none := by
        simp only [sizeSeq, hs, Option.some_bind] at hk
        exact hk
      obtain ⟨rec, hrec, _⟩ := recordOf_isSome env repeat_ (zeroOf env.t_dummy) k' s
        (le_trans (by norm_num) (hundred_le_sizeSeq factor hfac k' s hs))
      have hsz := hsizes (k' + 1) (le_refl _)
      have hrb : recordsBefore env factor repeat_ (zeroOf env.t_dummy) (k' + 1) =
          recordsBefore env factor repeat_ (zeroOf env.t_dummy) k' ++ [rec] := by
        simp only [recordsBefore, hs, Option.some_bind, hrec, Option.toList]
      refine ⟨{ exit := Exit.undefinedBehaviour
                stdout := recordsBefore env factor repeat_ (zeroOf env.t_dummy) (k' + 1)
                stderr := [] }, k' + 1, le_refl _, fun _ => by omega, fun fuel hfuel => ?_, hsz,
        Or.inr (Or.inr rfl)⟩
      obtain ⟨f, rfl⟩ : ∃ f, fuel = (f + 1) + k' := ⟨fuel - k' - 1, by omega⟩
      rw [main_reach env max_size factor repeat_ hmax hfac hrep k' s
        (fun i hi => hsteps i (Nat.lt_succ_of_lt hi)) hs (f + 1),
        sweep_step env max_size factor repeat_ _ f k' s _ rec hle hc hrec, hnext, hrb]

/-! ## Facts about the generator of the random mode -/

theorem galois_and_mask : (2 ^ 64 - 1) &&& GALOIS_POLYNOMIAL = GALOIS_POLYNOMIAL := by decide

theorem galois_eq : GALOIS_POLYNOMIAL = 2 ^ 59 * 27 := by decide

/-- Below the feedback taps a step of the generator is a right shift. -/
theorem lfsrStep_mod (rnd m : Nat) (hm : m ≤ 59) : lfsrStep rnd % 2 ^ m = (rnd / 2) % 2 ^ m := by
  unfold lfsrStep
  rw [Nat.shiftRight_eq_div_pow, pow_one, Nat.and_one_is_mod]
  rcases Nat.mod_two_eq_zero_or_one rnd with h | h
  · rw [h]
    simp
  · rw [h]
    have h1 : (2 ^ 64 - 1) % 2 ^ 64 = 2 ^ 64 - 1 := by decide
    rw [h1, galois_and_mask]
    apply Nat.eq_of_testBit_eq
    intro i
    rw [Nat.testBit_mod_two_pow, Nat.testBit_mod_two_pow, Nat.testBit_xor, galois_eq,
      Nat.testBit_mul_pow_two]
    by_cases hi : i < m
    · have : ¬ (59 ≤ i) := by omega
      simp [hi, this]
    · simp [hi]

/-- The first `n` indices modulo `2 ^ k` depend on the low `n + k` bits of the
state only. -/
theorem randomIndices_low_bits (k : Nat) :
    ∀ n r1 r2, n + k ≤ 59 → r1 % 2 ^ (n + k) = r2 % 2 ^ (n + k) →
      randomIndices (2 ^ k) n r1 = randomIndices (2 ^ k) n r2 := by
  intro n
  induction n with
  | zero => intro r1 r2 _ _; rfl
  | succ n ih =>
    intro r1 r2 hk h
    simp only [randomIndices]
    have hdvd : 2 ^ k ∣ 2 ^ (n + 1 + k) := pow_dvd_pow 2 (by omega)
    have hhead : r1 % 2 ^ k = r2 % 2 ^ k := by
      rw [← Nat.mod_mod_of_dvd r1 hdvd, ← Nat.mod_mod_of_dvd r2 hdvd, h]
    have hsplit : 2 ^ (n + 1 + k) = 2 * 2 ^ (n + k) := by
      rw [show n + 1 + k = (n + k) + 1 by omega, pow_succ]
      ring
    have htail : lfsrStep r1 % 2 ^ (n + k) = lfsrStep r2 % 2 ^ (n + k) := by
      rw [lfsrStep_mod r1 _ (by omega), lfsrStep_mod r2 _ (by omega),
        ← Nat.mod_mul_right_div_self, ← Nat.mod_mul_right_div_self, ← hsplit, h]
    rw [hhead, ih _ _ (by omega) htail]

theorem randomIndices_length (N : Nat) : ∀ n rnd, (randomIndices N n rnd).length = n := by
  intro n
  induction n with
  | zero => intro rnd; rfl
  | succ n ih => intro rnd; simp [randomIndices, ih]

theorem randomIndices_lt (N : Nat) (hN : 1 ≤ N) :
    ∀ n rnd x, x ∈ randomIndices N n rnd → x < N := by
  intro n
  induction n with
  | zero => intro rnd x hx; simp [randomIndices] at hx
  | succ n ih =>
    intro rnd x hx
    simp only [randomIndices, List.mem_cons] at hx
    rcases hx with rfl | hx
    · exact Nat.mod_lt _ (by omega)
    · exact ih _ x hx

theorem randomIndicesAdvanceFirst_eq (N : Nat) :
    ∀ n rnd, randomIndicesAdvanceFirst N n rnd = randomIndices N n (lfsrStep rnd) := by
  intro n
  induction n with
  | zero => intro rnd; rfl
  | succ n ih =>
    intro rnd
    simp only [randomIndicesAdvanceFirst, randomIndices, ih]

set_option maxRecDepth 100000 in
theorem no_low_bits_permute : ∀ a, a < 32 → ∀ h, h < 64 →
    ¬ ((randomIndices 2 2 (a + 32 * h)).Nodup ∧ (randomIndices 4 4 (a + 32 * h)).Nodup ∧
      (randomIndices 8 8 (a + 32 * h)).Nodup) := by
  decide

/-- Whatever the state the generator starts from, its first `N` indices are
not pairwise distinct for at least one of `N = 2`, `N = 4`, `N = 8`. -/
theorem no_state_permutes (rnd : Nat) :
    ¬ ((randomIndices 2 2 rnd).Nodup ∧ (randomIndices 4 4 rnd).Nodup ∧
      (randomIndices 8 8 rnd).Nodup) := by
  have hlow := no_low_bits_permute (rnd % 2048 % 32) (Nat.mod_lt _ (by norm_num))
    (rnd % 2048 / 32) (by omega)
  have hsum : rnd % 2048 % 32 + 32 * (rnd % 2048 / 32) = rnd % 2048 := Nat.mod_add_div _ _
  rw [hsum] at hlow
  have h2 : randomIndices 2 2 rnd = randomIndices 2 2 (rnd % 2048) :=
    randomIndices_low_bits 1 2 rnd (rnd % 2048) (by norm_num) (by norm_num)
  have h4 : randomIndices 4 4 rnd = randomIndices 4 4 (rnd % 2048) :=
    randomIndices_low_bits 2 4 rnd (rnd % 2048) (by norm_num) (by norm_num)
  have h8 : randomIndices 8 8 rnd = randomIndices 8 8 (rnd % 2048) :=
    randomIndices_low_bits 3 8 rnd (rnd % 2048) (by norm_num) (by norm_num)
  rw [h2, h4, h8]
  exact hlow

/-! ## The sizes of the sweep (C1) -/

/-- Claim C1 (as amended). On a valid input (`max_size ≥ 100`, `factor <= 1`
false, `repeat > 0`) whose allocations succeed and whose sweep ends — the sizes
`s_0 = 100`, `s_(i+1) = (uint64_t)(s_i * factor)` stay within `max_size` for
`i < k` and `s_k` exceeds it — `main` returns 0 and the sizes of the records
it printed — the records of the steps `0, …, k - 1` — are, in order, exactly
`s_0, …, s_(k-1)`: the first is 100 and each is at most `max_size`. Each
`s_(i+1)` is the integral part of the product `s_i * factor` that the program
computes in `double` (rounded to the nearest double), not of the exact
product. -/
theorem sweep_emits_iterated_sizes (env : Env) (max_size : Nat) (factor : F64) (repeat_ : Nat)
    (hmax : 100 ≤ max_size) (hfac : F64.le factor F64.one = false) (hrep : 0 < repeat_)
    (k sk : Nat)
    (hsteps : ∀ i, i < k →
      ∃ s, sizeSeq factor i = some s ∧ s ≤ max_size ∧ env.calloc i s = true)
    (hk : sizeSeq factor k = some sk) (hend : max_size < sk) (fuel : Nat) (hfuel : k < fuel) :
    ∃ r, main env fuel 4 max_size factor repeat_ = some r ∧
      r.exit = Exit.code 0 ∧
      r.stdout = recordsBefore env factor repeat_ (zeroOf env.t_dummy) k ∧
      r.stdout.map (fun rec => some rec.array_size_in_memory) = (List.range k).map (sizeSeq factor) ∧
      (r.stdout.head?).map Record.array_size_in_memory = some 100 ∧
      (∀ rec, rec ∈ r.stdout → rec.array_size_in_memory ≤ max_size) ∧
      (∀ i, i < k → ∃ s q, sizeSeq factor i = some s ∧
        F64.toRat (F64.mul (F64.ofU64 s) factor) = some q ∧
        sizeSeq factor (i + 1) = some ⌊q⌋₊) := by
  obtain ⟨f, rfl⟩ : ∃ f, fuel = (f + 1) + k := ⟨fuel - k - 1, by omega⟩
  have hrun := main_reach env max_size factor repeat_ hmax hfac hrep k sk hsteps hk (f + 1)
  rw [sweep_succ, if_neg (by omega)] at hrun
  have hsizes := recordsBefore_sizes env factor repeat_ (zeroOf env.t_dummy) hfac k
    (fun i hi => (hsteps i hi).imp fun s hs => hs.1)
  have hsucc : ∀ i, i < k → ∃ s q, sizeSeq factor i = some s ∧
      F64.toRat (F64.mul (F64.ofU64 s) factor) = some q ∧
      sizeSeq factor (i + 1) = some ⌊q⌋₊ := by
    intro i hi
    obtain ⟨s, hs, _, _⟩ := hsteps i hi
    have hnext : ∃ t, sizeSeq factor (i + 1) = some t := by
      rcases Nat.lt_or_ge (i + 1) k with hlt | hge
      · exact (hsteps (i + 1) hlt).imp fun t ht => ht.1
      · have : i + 1 = k := by omega
        exact ⟨sk, by rw [this]; exact hk⟩
    obtain ⟨t, ht⟩ := hnext
    have hns : nextSize s factor = some t := by
      simp only [sizeSeq, hs, Option.some_bind] at ht
      exact ht
    obtain ⟨q, hq, htq⟩ := nextSize_eq_floor s factor t hns
    exact ⟨s, q, hs, hq, by rw [ht, htq]⟩
  refine ⟨_, hrun, rfl, rfl, hsizes, ?_, ?_, hsucc⟩
  · have hkpos : 0 < k := by
      rcases Nat.eq_zero_or_pos k with h0 | h0
      · subst h0
        simp only [sizeSeq, Option.some.injEq] at hk
        omega
      · exact h0
    obtain ⟨k', rfl⟩ : ∃ k', k = k' + 1 := ⟨k - 1, by omega⟩
    show (List.head? (recordsBefore env factor repeat_ (zeroOf env.t_dummy) (k' + 1))).map
      Record.array_size_in_memory = some 100
    have h1 : ((recordsBefore env factor repeat_ (zeroOf env.t_dummy) (k' + 1)).map
        (fun rec => some rec.array_size_in_memory)).head? = some (some 100) := by
      rw [hsizes, List.range_succ_eq_map]
      simp [sizeSeq]
    cases hl : recordsBefore env factor repeat_ (zeroOf env.t_dummy) (k' + 1) with
    | nil => rw [hl] at h1; simp at h1
    | cons a l =>
      rw [hl] at h1
      simpa using h1
  · intro rec hrec
    show rec.array_size_in_memory ≤ max_size
    have hmem : some rec.array_size_in_memory ∈
        (recordsBefore env factor repeat_ (zeroOf env.t_dummy) k).map
          (fun rec => some rec.array_size_in_memory) := List.mem_map.2 ⟨rec, hrec, rfl⟩
    rw [hsizes] at hmem
    obtain ⟨i, hi, hsi⟩ := List.mem_map.1 hmem
    obtain ⟨s, hs, hle, _⟩ := hsteps i (List.mem_range.1 hi)
    rw [hs] at hsi
    have : s = rec.array_size_in_memory := by simpa using hsi
    omega

/-- Claim C1, worked example. With `max_size = 800`, `factor = 2` and
`repeat = 1000`, `main` returns 0 after the records for 100, 200, 400 and 800,
in that order. -/
theorem sweep_emits_iterated_sizes_witness :
    ∃ r, main sampleEnv 5 4 800 dbl_2 1000 = some r ∧ r.exit = Exit.code 0 ∧
      r.stdout.map (fun rec => some rec.array_size_in_memory) =
        [some 100, some 200, some 400, some 800] := by
  obtain ⟨r, hrun, hexit, _, hsizes, _, _, _⟩ :=
    sweep_emits_iterated_sizes sampleEnv 800 dbl_2 1000 (by decide) (by decide) (by decide)
      4 1600
      (fun i hi => by
        have hcases : i = 0 ∨ i = 1 ∨ i = 2 ∨ i = 3 := by omega
        rcases hcases with h | h | h | h <;> subst h
        · exact ⟨100, by decide, by decide, rfl⟩
        · exact ⟨200, by decide, by decide, rfl⟩
        · exact ⟨400, by decide, by decide, rfl⟩
        · exact ⟨800, by decide, by decide, rfl⟩)
      (by decide) (by decide) 5 (by decide)
  exact ⟨r, hrun, hexit, by rw [hsizes]; decide⟩

/-- Claim C1, counterexample. The double nearest to 1.2 is slightly less than
1.2, so in exact arithmetic `floor(100 * factor) = 119`, and the recurrence of
the claim is `100, 119, 142, …`; the program computes the product in `double`,
where it rounds to `120.0`. With `max_size = 119` the claim's sequence has the
two terms 100 and 119 within `max_size`, but `main` prints the record for 100
only and returns 0. -/
theorem sweep_exact_floor_counterexample :
    F64.le dbl_1_2 F64.one = false ∧
    F64.isDouble dbl_1_2 ∧
    floorSeq dbl_1_2 1 = some 119 ∧
    floorSeq dbl_1_2 2 = some 142 ∧
    nextSize 100 dbl_1_2 = some 120 ∧
    ∃ r, (∀ fuel, 2 ≤ fuel → main sampleEnv fuel 4 119 dbl_1_2 1 = some r) ∧
      r.exit = Exit.code 0 ∧
      r.stdout.map (fun rec => some rec.array_size_in_memory) = [some 100] := by
  have hq : F64.toRat dbl_1_2 = some (5404319552844595 / 4503599627370496) := by
    simp only [dbl_1_2, F64.toRat, Bool.false_eq_true, if_false, Option.some.injEq]
    norm_num
  have h1 : floorSeq dbl_1_2 1 = some 119 := by
    simp only [floorSeq, Option.some_bind, hq, Option.map_some', Option.some.injEq]
    rw [Nat.floor_eq_iff (by norm_num)]
    constructor <;> norm_num
  have h2 : floorSeq dbl_1_2 2 = some 142 := by
    rw [floorSeq, h1]
    simp only [Option.some_bind, hq, Option.map_some', Option.some.injEq]
    rw [Nat.floor_eq_iff (by norm_num)]
    constructor <;> norm_num
  have hsteps : ∀ i, i < 1 →
      ∃ s, sizeSeq dbl_1_2 i = some s ∧ s ≤ 119 ∧ sampleEnv.calloc i s = true := by
    intro i hi
    have h0 : i = 0 := by omega
    subst h0
    exact ⟨100, by decide, by decide, rfl⟩
  have hsizes := recordsBefore_sizes sampleEnv dbl_1_2 1 (zeroOf sampleEnv.t_dummy)
    (by decide) 1 (fun i hi => (hsteps i hi).imp fun s hs => hs.1)
  refine ⟨by decide, by decide, h1, h2, by decide,
    { exit := Exit.code 0
      stdout := recordsBefore sampleEnv dbl_1_2 1 (zeroOf sampleEnv.t_dummy) 1
      stderr := [] }, ?_, rfl, ?_⟩
  · intro fuel hfuel
    obtain ⟨f, rfl⟩ : ∃ f, fuel = (f + 1) + 1 := ⟨fuel - 2, by omega⟩
    rw [main_reach sampleEnv 119 dbl_1_2 1 (by decide) (by decide) (by decide) 1 120
      hsteps (by decide) (f + 1), sweep_succ, if_neg (by decide)]
  · rw [hsizes]
    decide

/-! ## Termination of the sweep (C2) -/

/-- Claim C2 (as amended). For every `max_size ≥ 100`, every `repeat > 0` and
every finite factor of at least 1.01 (such a factor passes the validation),
every step strictly increases the size — for every size `s ≥ 100` the update
`(uint64_t)(s * factor)`, where it is defined, is greater than `s` — and the
sweep stops: there is one result that `main` returns however long it is left
to run beyond `max_size - 98` evaluations of the loop condition — a return of
0, a return of -1, or a conversion out of the range of `uint64_t` — after the
records of the steps before some `j ≤ max_size - 99`, with `j ≥ 1` when the
first allocation succeeds. -/
theorem sweep_terminates (env : Env) (max_size : Nat) (factor : F64) (repeat_ : Nat)
    (hmax : 100 ≤ max_size) (hrep : 0 < repeat_)
    (q : ℚ) (hq : F64.toRat factor = some q) (hfactor : (101 : ℚ) / 100 ≤ q) :
    F64.le factor F64.one = false ∧
    (∀ s t, 100 ≤ s → nextSize s factor = some t → s < t) ∧
    ∃ r j, j ≤ max_size - 99 ∧ (env.calloc 0 100 = true → 1 ≤ j) ∧
      (∀ fuel, max_size - 98 ≤ fuel → main env fuel 4 max_size factor repeat_ = some r) ∧
      r.stdout.map (fun rec => some rec.array_size_in_memory) =
        (List.range j).map (sizeSeq factor) ∧
      (r.exit = Exit.code 0 ∨ r.exit = Exit.code (-1) ∨ r.exit = Exit.undefinedBehaviour) := by
  cases factor with
  | nan => simp [F64.toRat] at hq
  | inf sign => simp [F64.toRat] at hq
  | fin sf mf ef =>
    have hsf : sf = false := by
      cases sf
      · rfl
      · exfalso
        simp only [F64.toRat, if_true, Option.some.injEq] at hq
        have hnn : (0 : ℚ) ≤ (mf : ℚ) * (2 : ℚ) ^ ef := by positivity
        rw [← hq] at hfactor
        linarith
    subst hsf
    have hval : (101 : ℚ) / 100 ≤ (mf : ℚ) * (2 : ℚ) ^ ef := by
      simp only [F64.toRat, Bool.false_eq_true, if_false, Option.some.injEq] at hq
      rw [← hq] at hfactor
      simpa using hfactor
    have hfac : F64.le (F64.fin false mf ef) F64.one = false :=
      le_one_false_of_one_lt mf ef (lt_of_lt_of_le (by norm_num) hval)
    refine ⟨hfac, fun s t hs h => lt_nextSize s mf ef t hs hval h, ?_⟩
    -- some step within the first `max_size - 99` does not run
    have hex : ∃ k, ¬ ∃ s, sizeSeq (F64.fin false mf ef) k = some s ∧ s ≤ max_size ∧
        env.calloc k s = true := by
      refine ⟨max_size - 99, ?_⟩
      rintro ⟨s, hs, hle, _⟩
      have := add_le_sizeSeq mf ef hval _ s hs
      omega
    classical
    have hfind := Nat.find_spec hex
    have hmin : ∀ i, i < Nat.find hex →
        ∃ s, sizeSeq (F64.fin false mf ef) i = some s ∧ s ≤ max_size ∧ env.calloc i s = true :=
      fun i hi => not_not.1 (Nat.find_min hex hi)
    have hbound : Nat.find hex ≤ max_size - 99 := by
      apply Nat.find_min'
      rintro ⟨s, hs, hle, _⟩
      have := add_le_sizeSeq mf ef hval _ s hs
      omega
    obtain ⟨r, j, hj, hpos, hrun, hsz, hexit⟩ :=
      main_stops env max_size (F64.fin false mf ef) repeat_ hmax hfac hrep _ hmin hfind
    refine ⟨r, j, le_trans hj hbound, ?_, fun fuel hfuel => hrun fuel (by omega), hsz, hexit⟩
    intro hc
    apply hpos
    rcases Nat.eq_zero_or_pos (Nat.find hex) with h0 | h0
    · exfalso
      rw [h0] at hfind
      exact hfind ⟨100, rfl, hmax, hc⟩
    · exact h0

/-- Claim C2, the boundary case. With `max_size = 100`, `factor = 1.01` and
`repeat = 1` (and allocations that succeed) the run terminates: `main` returns
0 with the record for size 100 as its only output. -/
theorem sweep_terminates_witness :
    ∃ r, (∀ fuel, 2 ≤ fuel → main sampleEnv fuel 4 100 dbl_1_01 1 = some r) ∧
      r.exit = Exit.code 0 ∧
      r.stdout.map (fun rec => some rec.array_size_in_memory) = [some 100] := by
  obtain ⟨_, _, r, j, hj, hpos, hrun, hsz, _⟩ :=
    sweep_terminates sampleEnv 100 dbl_1_01 1 (by decide) (by decide)
      (4548635623644201 * (2 : ℚ) ^ (-52 : Int))
      (by simp [F64.toRat, dbl_1_01]) (by norm_num)
  have hj1 : j = 1 := by
    have := hpos rfl
    omega
  subst hj1
  have h2 := hrun 2 (le_refl 2)
  have h3 := main_reach sampleEnv 100 dbl_1_01 1 (by decide) (by decide) (by decide) 1 101
    (fun i hi => by
      have h0 : i = 0 := by omega
      subst h0
      exact ⟨100, by decide, by decide, rfl⟩)
    (by decide) 1
  rw [sweep_succ, if_neg (by decide)] at h3
  have h4 : (1 : Nat) + 1 = 2 := rfl
  rw [h4, h2] at h3
  have h5 := Option.some.inj h3
  exact ⟨r, hrun, by rw [h5], by rw [hsz]; decide⟩

/-- Claim C2, counterexample. The factor `1.0009765625` passes the validation
(`factor <= 1` is false), yet it leaves the size 100 unchanged,
`(uint64_t)(100 * 1.0009765625) = 100`, and with `max_size = 100` the loop of
`main` never ends: the run is still going after any number of iterations. -/
theorem sweep_terminates_counterexample :
    F64.le dbl_1_0009765625 F64.one = false ∧
    F64.isDouble dbl_1_0009765625 ∧
    nextSize 100 dbl_1_0009765625 = some 100 ∧
    ∀ fuel, main sampleEnv fuel 4 100 dbl_1_0009765625 1 = none := by
  refine ⟨by decide, by decide, by decide, ?_⟩
  have hseq : ∀ n, sizeSeq dbl_1_0009765625 n = some 100 := by
    intro n
    induction n with
    | zero => rfl
    | succ n ih =>
      simp only [sizeSeq, ih, Option.some_bind]
      decide
  intro fuel
  have := main_reach sampleEnv 100 dbl_1_0009765625 1 (by decide) (by decide) (by decide)
    fuel 100 (fun i _ => ⟨100, hseq i, le_refl _, rfl⟩) (hseq fuel) 0
  rw [Nat.zero_add] at this
  rw [this]
  rfl

/-! ## The last size of the sweep (C3) -/

/-- Claim C3 (as amended). On a valid input whose factor is a binary64 value,
whose allocations succeed and whose sweep ends, the last size for which `main`
prints a record is the largest value of the iterated sequence `s_0 = 100`,
`s_(i+1) = (uint64_t)(s_i * factor)` that does not exceed `max_size`. -/
theorem last_size_is_largest_iterated (env : Env) (max_size : Nat) (factor : F64)
    (repeat_ : Nat) (hmax : 100 ≤ max_size) (hfac : F64.le factor F64.one = false)
    (hrep : 0 < repeat_) (hd : F64.isDouble factor) (k sk : Nat)
    (hsteps : ∀ i, i < k →
      ∃ s, sizeSeq factor i = some s ∧ s ≤ max_size ∧ env.calloc i s = true)
    (hk : sizeSeq factor k = some sk) (hend : max_size < sk) (fuel : Nat) (hfuel : k < fuel) :
    ∃ r v, main env fuel 4 max_size factor repeat_ = some r ∧
      r.exit = Exit.code 0 ∧
      (r.stdout.getLast?).map Record.array_size_in_memory = some v ∧
      IsLargestNotAbove (sizeSeq factor) max_size v := by
  obtain ⟨f, rfl⟩ : ∃ f, fuel = (f + 1) + k := ⟨fuel - k - 1, by omega⟩
  have hrun := main_reach env max_size factor repeat_ hmax hfac hrep k sk hsteps hk (f + 1)
  rw [sweep_succ, if_neg (by omega)] at hrun
  have hkpos : 0 < k := by
    rcases Nat.eq_zero_or_pos k with h0 | h0
    · subst h0
      simp only [sizeSeq, Option.some.injEq] at hk
      omega
    · exact h0
  obtain ⟨k', rfl⟩ : ∃ k', k = k' + 1 := ⟨k - 1, by omega⟩
  obtain ⟨v, hv, hvle, _⟩ := hsteps k' (Nat.lt_succ_self k')
  obtain ⟨rec, hrec, hsize⟩ := recordOf_isSome env repeat_ (zeroOf env.t_dummy) k' v
    (le_trans (by norm_num) (hundred_le_sizeSeq factor hfac k' v hv))
  have hrb : recordsBefore env factor repeat_ (zeroOf env.t_dummy) (k' + 1) =
      recordsBefore env factor repeat_ (zeroOf env.t_dummy) k' ++ [rec] := by
    simp only [recordsBefore, hv, Option.some_bind, hrec, Option.toList]
  refine ⟨_, v, hrun, rfl, ?_, ⟨k', hv⟩, hvle, ?_⟩
  · show (List.getLast? (recordsBefore env factor repeat_ (zeroOf env.t_dummy) (k' + 1))).map
      Record.array_size_in_memory = some v
    rw [hrb, List.getLast?_append, List.getLast?_singleton]
    simp [hsize]
  · intro j w hj hw
    rcases Nat.lt_or_ge k' j with hlt | hge
    · have := sizeSeq_mono factor hd hfac j (k' + 1) sk w (by omega) hk hj
      omega
    · exact sizeSeq_mono factor hd hfac k' j w v hge hj hv

/-- Claim C3, worked example. With `max_size = 800` and `factor = 2` the last
record is the one for 800, the largest term of `100, 200, 400, 800, 1600, …`
within 800. -/
theorem last_size_is_largest_iterated_witness :
    ∃ r v, main sampleEnv 5 4 800 dbl_2 1000 = some r ∧
      r.exit = Exit.code 0 ∧
      (r.stdout.getLast?).map Record.array_size_in_memory = some v ∧
      IsLargestNotAbove (sizeSeq dbl_2) 800 v :=
  last_size_is_largest_iterated sampleEnv 800 dbl_2 1000 (by decide) (by decide) (by decide)
    (by decide) 4 1600
    (fun i hi => by
      have hcases : i = 0 ∨ i = 1 ∨ i = 2 ∨ i = 3 := by omega
      rcases hcases with h | h | h | h <;> subst h
      · exact ⟨100, by decide, by decide, rfl⟩
      · exact ⟨200, by decide, by decide, rfl⟩
      · exact ⟨400, by decide, by decide, rfl⟩
      · exact ⟨800, by decide, by decide, rfl⟩)
    (by decide) (by decide) 5 (by decide)

theorem closedForm_dbl_1_5 (k : Nat) : closedForm dbl_1_5 k = some ⌊100 * ((3 : ℚ) / 2) ^ k⌋₊ := by
  have : ((1 : ℚ) * ((3 : ℕ) : ℚ) * (2 : ℚ) ^ (-1 : Int)) = (3 : ℚ) / 2 := by norm_num
  simp only [closedForm, dbl_1_5, F64.toRat, Bool.false_eq_true, if_false, Option.map_some',
    this]

/-- Claim C3, counterexample. With `max_size = 505` and `factor = 1.5` the sweep
prints the records for `100, 150, 225, 337, 505`, so its last size is 505; the
closed-form sequence `floor(100 * 1.5^k)` is `100, 150, 225, 337, 506, …`: its
largest value within 505 is 337, and 505 is not one of its values. -/
theorem last_size_closed_form_counterexample :
    (∃ r, main sampleEnv 6 4 505 dbl_1_5 1 = some r ∧ r.exit = Exit.code 0 ∧
      r.stdout.map (fun rec => some rec.array_size_in_memory) =
        [some 100, some 150, some 225, some 337, some 505] ∧
      (r.stdout.getLast?).map (fun rec => some rec.array_size_in_memory) = some (some 505)) ∧
    IsLargestNotAbove (closedForm dbl_1_5) 505 337 ∧
    ¬ IsLargestNotAbove (closedForm dbl_1_5) 505 505 := by
  have hsteps : ∀ i, i < 5 →
      ∃ s, sizeSeq dbl_1_5 i = some s ∧ s ≤ 505 ∧ sampleEnv.calloc i s = true := by
    intro i hi
    have hcases : i = 0 ∨ i = 1 ∨ i = 2 ∨ i = 3 ∨ i = 4 := by omega
    rcases hcases with h | h | h | h | h <;> subst h
    · exact ⟨100, by decide, by decide, rfl⟩
    · exact ⟨150, by decide, by decide, rfl⟩
    · exact ⟨225, by decide, by decide, rfl⟩
    · exact ⟨337, by decide, by decide, rfl⟩
    · exact ⟨505, by decide, by decide, rfl⟩
  have hrun := main_reach sampleEnv 505 dbl_1_5 1 (by decide) (by decide) (by decide) 5 757
    hsteps (by decide) 1
  rw [sweep_succ, if_neg (by decide)] at hrun
  have hsizes := recordsBefore_sizes sampleEnv dbl_1_5 1 (zeroOf sampleEnv.t_dummy)
    (by decide) 5 (fun i hi => (hsteps i hi).imp fun s hs => hs.1)
  have hlist : (List.range 5).map (sizeSeq dbl_1_5) =
      [some 100, some 150, some 225, some 337, some 505] := by decide
  rw [hlist] at hsizes
  -- the closed form from the fourth power on
  have hbig : ∀ k, 4 ≤ k → 506 ≤ ⌊100 * ((3 : ℚ) / 2) ^ k⌋₊ := by
    intro k hk
    apply Nat.le_floor
    have h1 : ((3 : ℚ) / 2) ^ 4 ≤ ((3 : ℚ) / 2) ^ k :=
      pow_le_pow_right₀ (by norm_num) hk
    have h2 : ((3 : ℚ) / 2) ^ 4 = 81 / 16 := by norm_num
    rw [h2] at h1
    push_cast
    linarith
  have hsmall : ∀ k, k < 4 → ⌊100 * ((3 : ℚ) / 2) ^ k⌋₊ ≤ 337 := by
    intro k hk
    have hlt : 100 * ((3 : ℚ) / 2) ^ k < ((338 : ℕ) : ℚ) := by
      have hcases : k = 0 ∨ k = 1 ∨ k = 2 ∨ k = 3 := by omega
      rcases hcases with h | h | h | h <;> subst h <;> norm_num
    have := (Nat.floor_lt (by positivity)).2 hlt
    omega
  have h3 : ⌊100 * ((3 : ℚ) / 2) ^ 3⌋₊ = 337 := by
    have h4 : (100 : ℚ) * ((3 : ℚ) / 2) ^ 3 = 337 + 1 / 2 := by norm_num
    rw [h4]
    have : ⌊((337 : ℕ) : ℚ) + 1 / 2⌋₊ = 337 := by
      rw [Nat.floor_eq_iff (by positivity)]
      constructor <;> norm_num
    simpa using this
  refine ⟨⟨_, hrun, rfl, hsizes, ?_⟩, ⟨⟨3, ?_⟩, by norm_num, ?_⟩, ?_⟩
  · rw [← List.getLast?_map, hsizes]
    rfl
  · rw [closedForm_dbl_1_5, h3]
  · intro k w hk hw
    rw [closedForm_dbl_1_5] at hk
    have hkw : ⌊100 * ((3 : ℚ) / 2) ^ k⌋₊ = w := by simpa using hk
    rcases Nat.lt_or_ge k 4 with hlt | hge
    · have := hsmall k hlt
      omega
    · have := hbig k hge
      omega
  · rintro ⟨⟨k, hk⟩, _, _⟩
    rw [closedForm_dbl_1_5] at hk
    have hkw : ⌊100 * ((3 : ℚ) / 2) ^ k⌋₊ = 505 := by simpa using hk
    rcases Nat.lt_or_ge k 4 with hlt | hge
    · have := hsmall k hlt
      omega
    · have := hbig k hge
      omega

/-! ## Rejected configurations (C4) -/

/-- Claim C4. `main` rejects the configuration — it returns -1 with nothing on
standard output and the usage or invalid-arguments message on standard error —
if and only if the argument count is not 4 or `max_size < 100` or
`factor <= 1` or `repeat <= 0`; a rejection does not depend on the clock, the
allocator or the measurements, nor on how long the program is left to run;
and on any other input whose allocations succeed and whose sweep ends, `main`
returns 0. -/
theorem main_rejects_iff_invalid (env : Env) (fuel argc max_size : Nat) (factor : F64)
    (repeat_ : Nat) :
    ((main env fuel argc max_size factor repeat_ =
          some { exit := Exit.code (-1), stdout := [], stderr := [Diag.usage] } ∨
        main env fuel argc max_size factor repeat_ =
          some { exit := Exit.code (-1), stdout := [], stderr := [Diag.invalidArguments] }) ↔
      (argc ≠ 4 ∨ max_size < 100 ∨ F64.le factor F64.one = true ∨ repeat_ ≤ 0)) ∧
    ((argc ≠ 4 ∨ max_size < 100 ∨ F64.le factor F64.one = true ∨ repeat_ ≤ 0) →
      ∀ env2 fuel2, main env2 fuel2 argc max_size factor repeat_ =
        main env fuel argc max_size factor repeat_) ∧
    (¬ (argc ≠ 4 ∨ max_size < 100 ∨ F64.le factor F64.one = true ∨ repeat_ ≤ 0) →
      ∀ k sk,
        (∀ i, i < k → ∃ s, sizeSeq factor i = some s ∧ s ≤ max_size ∧ env.calloc i s = true) →
        sizeSeq factor k = some sk → max_size < sk → k < fuel →
        ∃ r, main env fuel argc max_size factor repeat_ = some r ∧ r.exit = Exit.code 0) := by
  by_cases hargc : argc = 4
  · by_cases hinv : max_size < 100 ∨ F64.le factor F64.one = true ∨ repeat_ ≤ 0
    · have hmain : ∀ e f, main e f argc max_size factor repeat_ =
          some { exit := Exit.code (-1), stdout := [], stderr := [Diag.invalidArguments] } := by
        intro e f
        unfold main
        rw [if_neg (by simpa using hargc), if_pos hinv]
      refine ⟨⟨fun _ => Or.inr hinv, fun _ => Or.inr (hmain env fuel)⟩, ?_, ?_⟩
      · intro _ env2 fuel2
        rw [hmain, hmain]
      · intro hno
        exact absurd (Or.inr hinv) hno
    · have hmax : 100 ≤ max_size := by
        by_contra hc
        exact hinv (Or.inl (by omega))
      have hfac : F64.le factor F64.one = false := by
        cases hle : F64.le factor F64.one
        · rfl
        · exact absurd (Or.inr (Or.inl hle)) hinv
      have hrep : 0 < repeat_ := by
        by_contra hc
        exact hinv (Or.inr (Or.inr (by omega)))
      subst hargc
      refine ⟨⟨?_, ?_⟩, ?_, ?_⟩
      · intro h
        exfalso
        rw [main_valid env fuel max_size factor repeat_ hmax hfac hrep] at h
        rcases h with h | h <;>
          rcases sweep_stderr env max_size factor repeat_ _ _ _ _ _ _ h with h' | ⟨size, h'⟩ <;>
          simp at h'
      · rintro (h | h)
        · exact absurd rfl h
        · exact absurd h hinv
      · rintro (h | h)
        · exact absurd rfl h
        · exact absurd h hinv
      · intro _ k sk hsteps hk hend hfuel
        obtain ⟨f, rfl⟩ : ∃ f, fuel = (f + 1) + k := ⟨fuel - k - 1, by omega⟩
        have hrun := main_reach env max_size factor repeat_ hmax hfac hrep k sk hsteps hk (f + 1)
        rw [sweep_succ, if_neg (by omega)] at hrun
        exact ⟨_, hrun, rfl⟩
  · have hmain : ∀ e f, main e f argc max_size factor repeat_ =
        some { exit := Exit.code (-1), stdout := [], stderr := [Diag.usage] } := by
      intro e f
      unfold main
      rw [if_pos hargc]
    refine ⟨⟨fun _ => Or.inl hargc, fun _ => Or.inl (hmain env fuel)⟩, ?_, ?_⟩
    · intro _ env2 fuel2
      rw [hmain, hmain]
    · intro hno
      exact absurd (Or.inl hargc) hno

/-- Claim C4, worked example. With `max_size = 50` the run is rejected: exit
code -1, no record. -/
theorem main_rejects_iff_invalid_witness :
    main sampleEnv 10 4 50 dbl_2 1000 =
      some { exit := Exit.code (-1), stdout := [], stderr := [Diag.invalidArguments] } := by
  have h := (main_rejects_iff_invalid sampleEnv 10 4 50 dbl_2 1000).1.2
    (Or.inr (Or.inl (by decide)))
  rcases h with h | h
  · exact absurd h (by decide)
  · exact h

/-! ## Allocation failure (C5) -/

/-- Claim C5. On a valid input, if the allocations of the steps before `k`
succeed and the one of step `k` — at the size `s`, still within `max_size` —
fails, `main` returns -1 with the failing size on standard error, and its
standard output holds the records of the steps `0, …, k - 1` and nothing else:
`k` records, with the sizes that precede `s` in the sweep, in order, the same
records that the sweep prints first whatever the allocator does. -/
theorem allocation_failure_aborts (env : Env) (max_size : Nat) (factor : F64) (repeat_ : Nat)
    (hmax : 100 ≤ max_size) (hfac : F64.le factor F64.one = false) (hrep : 0 < repeat_)
    (k s : Nat)
    (hsteps : ∀ i, i < k →
      ∃ si, sizeSeq factor i = some si ∧ si ≤ max_size ∧ env.calloc i si = true)
    (hk : sizeSeq factor k = some s) (hle : s ≤ max_size) (hfail : env.calloc k s = false)
    (fuel : Nat) (hfuel : k < fuel) :
    ∃ r, main env fuel 4 max_size factor repeat_ = some r ∧
      r.exit = Exit.code (-1) ∧
      r.stderr = [Diag.allocationFailed s] ∧
      r.stdout = recordsBefore env factor repeat_ (zeroOf env.t_dummy) k ∧
      r.stdout.length = k ∧
      r.stdout.map (fun rec => some rec.array_size_in_memory) =
        (List.range k).map (sizeSeq factor) ∧
      ∀ calloc2 n, k ≤ n →
        r.stdout <+:
          recordsBefore { env with calloc := calloc2 } factor repeat_ (zeroOf env.t_dummy) n := by
  obtain ⟨f, rfl⟩ : ∃ f, fuel = (f + 1) + k := ⟨fuel - k - 1, by omega⟩
  have hrun := main_reach env max_size factor repeat_ hmax hfac hrep k s hsteps hk (f + 1)
  rw [sweep_succ, if_pos hle, hfail] at hrun
  simp only [Bool.false_eq_true, if_false] at hrun
  have hsizes := recordsBefore_sizes env factor repeat_ (zeroOf env.t_dummy) hfac k
    (fun i hi => (hsteps i hi).imp fun s hs => hs.1)
  refine ⟨_, hrun, rfl, rfl, rfl, ?_, hsizes, ?_⟩
  · have := congrArg List.length hsizes
    simpa using this
  · intro calloc2 n hn
    rw [recordsBefore_calloc env calloc2]
    exact recordsBefore_prefix env factor repeat_ _ k n hn

/-- Claim C5, worked example. When the third allocation fails (`max_size = 800`,
`factor = 2`), `main` returns -1, reports the size 400, and has printed the
records for 100 and 200. -/
theorem allocation_failure_aborts_witness :
    ∃ r, main { sampleEnv with calloc := fun k _ => decide (k < 2) } 5 4 800 dbl_2 1000 = some r ∧
      r.exit = Exit.code (-1) ∧
      r.stderr = [Diag.allocationFailed 400] ∧
      r.stdout.map (fun rec => some rec.array_size_in_memory) = [some 100, some 200] := by
  obtain ⟨r, hrun, hexit, herr, _, _, hsizes, _⟩ :=
    allocation_failure_aborts { sampleEnv with calloc := fun k _ => decide (k < 2) } 800 dbl_2 1000
      (by decide) (by decide) (by decide) 2 400
      (fun i hi => by
        have hcases : i = 0 ∨ i = 1 := by omega
        rcases hcases with h | h <;> subst h
        · exact ⟨100, by decide, by decide, rfl⟩
        · exact ⟨200, by decide, by decide, rfl⟩)
      (by decide) (by decide) rfl 5 (by decide)
  exact ⟨r, hrun, hexit, herr, by rw [hsizes]; decide⟩

/-! ## The results of the sequential measurement (C6) -/

/-- Claim C6 (as amended). For every `repeat` and `arr_size ≥ 1` (both
`uint64_t` values), every array of at least `arr_size` elements, every `zero`
and clock readings with `t0 ≤ t1` and `t2 ≤ t3` (in nanoseconds, as computed
by `nanosectime`), `measure_sequential_latency` returns, both loops having run
`R = max repeat arr_size` iterations, with `R ≥ 1` and `R = repeat` whenever
`repeat ≥ arr_size`. The results are the binary64 quotients
`(double)(t1 - t0) / (double) R` and `(double)(t3 - t2) / (double) R`: finite,
non-negative doubles (the divisor is not zero) that agree with the exact
quotients `(t1 - t0) / R` and `(t3 - t2) / R` up to a relative error of
`2 ^ (-50)`, not exactly. -/
theorem sequential_latency_quotients (repeat_ : Nat) (arr : List Nat) (arr_size zero : Nat)
    (clk : Readings) (hrep : repeat_ < 2 ^ 64) (hsize : arr_size < 2 ^ 64) (hN : 1 ≤ arr_size)
    (hlen : arr_size ≤ arr.length)
    (h01 : nanosectime clk.t0 ≤ nanosectime clk.t1)
    (h23 : nanosectime clk.t2 ≤ nanosectime clk.t3) :
    ∃ (run : SequentialRun) (b a : ℚ),
      measure_sequential_latency_run repeat_ arr arr_size zero clk = some run ∧
      measure_sequential_latency repeat_ arr arr_size zero clk = some run.result ∧
      run.baselineIndices.length = max repeat_ arr_size ∧
      run.accessIndices.length = max repeat_ arr_size ∧
      1 ≤ max repeat_ arr_size ∧
      (arr_size ≤ repeat_ → max repeat_ arr_size = repeat_) ∧
      run.result.baseline =
        F64.div (F64.ofU64 (nanosectime clk.t1 - nanosectime clk.t0))
          (F64.ofU64 (max repeat_ arr_size)) ∧
      run.result.access_time =
        F64.div (F64.ofU64 (nanosectime clk.t3 - nanosectime clk.t2))
          (F64.ofU64 (max repeat_ arr_size)) ∧
      F64.toRat run.result.baseline = some b ∧
      F64.toRat run.result.access_time = some a ∧
      0 ≤ b ∧ 0 ≤ a ∧
      |b - ((nanosectime clk.t1 - nanosectime clk.t0 : ℕ) : ℚ) / ((max repeat_ arr_size : ℕ) : ℚ)| ≤
        ((nanosectime clk.t1 - nanosectime clk.t0 : ℕ) : ℚ) / ((max repeat_ arr_size : ℕ) : ℚ) /
          2 ^ 50 ∧
      |a - ((nanosectime clk.t3 - nanosectime clk.t2 : ℕ) : ℚ) / ((max repeat_ arr_size : ℕ) : ℚ)| ≤
        ((nanosectime clk.t3 - nanosectime clk.t2 : ℕ) : ℚ) / ((max repeat_ arr_size : ℕ) : ℚ) /
          2 ^ 50 := by
  have hne : arr_size ≠ 0 := by omega
  have hreps : (if arr_size > repeat_ then arr_size else repeat_) = max repeat_ arr_size := by
    split_ifs with hc
    · exact (max_eq_right (le_of_lt hc)).symm
    · exact (max_eq_left (by omega)).symm
  have hR1 : 1 ≤ max repeat_ arr_size := le_trans hN (le_max_right _ _)
  have hR64 : max repeat_ arr_size < 2 ^ 64 := max_lt hrep hsize
  have hn0 := nanosectime_lt clk.t0
  have hn1 := nanosectime_lt clk.t1
  have hn2 := nanosectime_lt clk.t2
  have hn3 := nanosectime_lt clk.t3
  have hd01 : (nanosectime clk.t1 + 2 ^ 64 - nanosectime clk.t0) % 2 ^ 64 =
      nanosectime clk.t1 - nanosectime clk.t0 := by omega
  have hd23 : (nanosectime clk.t3 + 2 ^ 64 - nanosectime clk.t2) % 2 ^ 64 =
      nanosectime clk.t3 - nanosectime clk.t2 := by omega
  obtain ⟨r1, hl1⟩ := baselineLoop_isSome arr_size zero hne (max repeat_ arr_size) 12345 []
  obtain ⟨r2, hl2⟩ := accessLoop_isSome arr arr_size zero hne hlen (max repeat_ arr_size)
    ((r1.1 &&& zero) ^^^ 12345) []
  have hlen1 := baselineLoop_length arr_size zero _ _ _ r1 hl1
  have hlen2 := accessLoop_length arr arr_size zero _ _ _ r2 hl2
  obtain ⟨mb, eb, hb, hberr⟩ := quotient_spec (nanosectime clk.t1 - nanosectime clk.t0)
    (max repeat_ arr_size) (by omega) hR64 hR1
  obtain ⟨ma, ea, ha, haerr⟩ := quotient_spec (nanosectime clk.t3 - nanosectime clk.t2)
    (max repeat_ arr_size) (by omega) hR64 hR1
  have hrun : measure_sequential_latency_run repeat_ arr arr_size zero clk =
      some
        { result :=
            { baseline := F64.fin false mb eb
              access_time := F64.fin false ma ea
              rnd := r2.1 }
          baselineIndices := r1.2
          accessIndices := r2.2 } := by
    unfold measure_sequential_latency_run
    simp only [hreps, hl1, hl2, hd01, hd23, hb, ha]
  refine ⟨_, (mb : ℚ) * (2 : ℚ) ^ eb, (ma : ℚ) * (2 : ℚ) ^ ea, hrun, ?_, ?_, ?_, hR1,
    fun h => max_eq_left h, hb.symm, ha.symm, ?_, ?_, by positivity, by positivity, hberr, haerr⟩
  · unfold measure_sequential_latency
    rw [hrun]
    rfl
  · simpa using hlen1
  · simpa using hlen2
  · simp [F64.toRat]
  · simp [F64.toRat]

/-- Claim C6, worked example. With `repeat = 4` on a one-element array and clock
readings 1000 ns and 2000 ns apart, the results are 250 ns and 500 ns per
iteration. -/
theorem sequential_latency_quotients_witness :
    ∃ (run : SequentialRun),
      measure_sequential_latency_run 4 [0] 1 0 (sampleEnv.clock 0) = some run ∧
      run.baselineIndices.length = 4 ∧
      F64.toRat run.result.baseline = some 250 ∧
      F64.toRat run.result.access_time = some 500 := by
  obtain ⟨run, b, a, hrun, _, hlen, _, _, _, _, _, _, _, _, _, _, _⟩ :=
    sequential_latency_quotients 4 [0] 1 0 (sampleEnv.clock 0) (by decide) (by decide)
      (by decide) (by decide) (by decide) (by decide)
  have hval : measure_sequential_latency_run 4 [0] 1 0 (sampleEnv.clock 0) =
      some
        { result :=
            { baseline := F64.fin false 8796093022208000 (-45)
              access_time := F64.fin false 8796093022208000 (-44)
              rnd := 12349 }
          baselineIndices := [0, 0, 0, 0]
          accessIndices := [0, 0, 0, 0] } := by decide
  rw [hval] at hrun
  have : run = _ := (Option.some.inj hrun).symm
  subst this
  refine ⟨_, hval, rfl, ?_, ?_⟩
  · simp only [F64.toRat]
    norm_num
  · simp only [F64.toRat]
    norm_num

/-- Claim C6, counterexample. With `repeat = 3` on a one-element array and clock
readings `t0`, `t1` one nanosecond apart, the baseline returned is the double
`6004799503160661 * 2^(-54)`, not the exact quotient `1/3`. -/
theorem sequential_latency_exact_counterexample :
    nanosectime { tv_sec := 1700000000, tv_nsec := 0 } ≤
      nanosectime { tv_sec := 1700000000, tv_nsec := 1 } ∧
    (measure_sequential_latency 3 [0] 1 0
        { t0 := { tv_sec := 1700000000, tv_nsec := 0 }
          t1 := { tv_sec := 1700000000, tv_nsec := 1 }
          t2 := { tv_sec := 1700000000, tv_nsec := 1 }
          t3 := { tv_sec := 1700000000, tv_nsec := 2 } }).map
      (fun m => F64.toRat m.baseline) =
        some (some (6004799503160661 * (2 : ℚ) ^ (-54 : Int))) ∧
    (6004799503160661 * (2 : ℚ) ^ (-54 : Int)) ≠ (1 : ℚ) / 3 := by
  refine ⟨by decide, ?_, by norm_num⟩
  have hval : measure_sequential_latency 3 [0] 1 0
      { t0 := { tv_sec := 1700000000, tv_nsec := 0 }
        t1 := { tv_sec := 1700000000, tv_nsec := 1 }
        t2 := { tv_sec := 1700000000, tv_nsec := 1 }
        t3 := { tv_sec := 1700000000, tv_nsec := 2 } } =
      some
        { baseline := F64.fin false 6004799503160661 (-54)
          access_time := F64.fin false 6004799503160661 (-54)
          rnd := 12348 } := by decide
  rw [hval]
  simp [F64.toRat]

/-! ## The value of zero (C7) -/

/-- The value `zero` of `main` is 0 when the nanosecond timestamp is greater
than 1000000000, and the timestamp itself otherwise. -/
theorem zeroOf_cases (t_dummy : Timespec) :
    (1000000000 < nanosectime t_dummy → zeroOf t_dummy = 0) ∧
    (nanosectime t_dummy ≤ 1000000000 → zeroOf t_dummy = nanosectime t_dummy) := by
  unfold zeroOf
  constructor
  · intro h
    rw [if_pos h]
  · intro h
    rw [if_neg (by omega)]

/-- Claim C7. The code at a clock reading taken 5000005 ns after the epoch (a
system clock that has just been set to, or has started at, 1970-01-01
00:00:00 UTC): `main` derives `zero = 5000005`, not 0; the masked fold
`7 & zero` is 5, not 0; and `measure_sequential_latency`, called with this
`zero` on an array of seven elements, computes the baseline indices
`4, 2, 3, 3, 3, 3, 3` where `zero = 0` gives the counter `4, 5, 6, 0, 1, 2, 3`. -/
theorem zero_not_zero_after_epoch :
    nanosectime { tv_sec := 0, tv_nsec := 5000005 } = 5000005 ∧
    zeroOf { tv_sec := 0, tv_nsec := 5000005 } = 5000005 ∧
    7 &&& zeroOf { tv_sec := 0, tv_nsec := 5000005 } = 5 ∧
    (measure_sequential_latency_run 3 [0, 0, 0, 0, 0, 0, 0] 7
        (zeroOf { tv_sec := 0, tv_nsec := 5000005 }) (sampleEnv.clock 0)).map
      SequentialRun.baselineIndices = some [4, 2, 3, 3, 3, 3, 3] ∧
    (measure_sequential_latency_run 3 [0, 0, 0, 0, 0, 0, 0] 7 0 (sampleEnv.clock 0)).map
      SequentialRun.baselineIndices = some [4, 5, 6, 0, 1, 2, 3] := by
  decide

/-! ## The indices of the random mode (C8) -/

/-- Claim C8 (as amended). For every `N ≥ 1`, the generator of the random mode,
iterated `N` times from its seed (or from any other state), yields `N`
indices, each of them less than `N`; the indices need not be pairwise
distinct. -/
theorem random_indices_in_range (N : Nat) (hN : 1 ≤ N) (rnd : Nat) :
    (randomIndices N N rnd).length = N ∧ ∀ x, x ∈ randomIndices N N rnd → x < N :=
  ⟨randomIndices_length N N rnd, randomIndices_lt N hN N rnd⟩

/-- Claim C8, worked example. For `N = 7` the seven indices from the seed are
all below 7. -/
theorem random_indices_in_range_witness :
    (randomIndices 7 7 seed).length = 7 ∧ ∀ x, x ∈ randomIndices 7 7 seed → x < 7 :=
  random_indices_in_range 7 (by decide) seed

/-- Claim C8, counterexample. For `N = 7` the first seven indices from the seed
are `4, 1, 4, 2, 4, 0, 2`: the index 4 is visited three times and the indices
3, 5 and 6 are not visited. The same happens when the generator is advanced
before each index is taken, and for `N = 100`, the first array length of the
sweep, the index 48 comes up at the second and again at the eighth iteration.
No other seed does better: from every state, in either order, the first `N`
indices repeat for one of `N = 2`, `N = 4`, `N = 8`. -/
theorem random_indices_counterexample :
    randomIndices 7 7 seed = [4, 1, 4, 2, 4, 0, 2] ∧
    ¬ (randomIndices 7 7 seed).Nodup ∧
    randomIndicesAdvanceFirst 7 7 seed = [1, 4, 2, 4, 0, 2, 1] ∧
    ¬ (randomIndicesAdvanceFirst 7 7 seed).Nodup ∧
    (randomIndices 100 100 seed).take 8 = [45, 48, 74, 87, 91, 13, 96, 48] ∧
    (∀ rnd, ¬ ((randomIndices 2 2 rnd).Nodup ∧ (randomIndices 4 4 rnd).Nodup ∧
      (randomIndices 8 8 rnd).Nodup)) ∧
    (∀ rnd, ¬ ((randomIndicesAdvanceFirst 2 2 rnd).Nodup ∧
      (randomIndicesAdvanceFirst 4 4 rnd).Nodup ∧ (randomIndicesAdvanceFirst 8 8 rnd).Nodup)) := by
  refine ⟨by decide, by decide, by decide, by decide, by decide, no_state_permutes, ?_⟩
  intro rnd
  rw [randomIndicesAdvanceFirst_eq, randomIndicesAdvanceFirst_eq, randomIndicesAdvanceFirst_eq]
  exact no_state_permutes (lfsrStep rnd)

/-! ## The indices of the sequential mode (C9, C10) -/

/-- Claim C9. With `zero = 0`, on an array of (at least) `N ≥ 1` elements, for
every `repeat` and every array contents a call of `measure_sequential_latency`
returns; each of its two loops runs exactly `R = max repeat N` iterations; the
index computed at iteration `i < R` is `(12345 + i) mod 2^64 mod N` in both
loops; every index read is below `N`; and the returned `rnd` is
`(12345 + R) mod 2^64`. -/
theorem sequential_index_sequence (repeat_ : Nat) (arr : List Nat) (N : Nat) (clk : Readings)
    (hN : 1 ≤ N) (hlen : N ≤ arr.length) :
    ∃ run, measure_sequential_latency_run repeat_ arr N 0 clk = some run ∧
      measure_sequential_latency repeat_ arr N 0 clk = some run.result ∧
      run.baselineIndices.length = max repeat_ N ∧
      run.accessIndices.length = max repeat_ N ∧
      (∀ i, i < max repeat_ N →
        run.baselineIndices[i]? = some ((12345 + i) % 2 ^ 64 % N) ∧
        run.accessIndices[i]? = some ((12345 + i) % 2 ^ 64 % N)) ∧
      (∀ x, x ∈ run.accessIndices → x < N) ∧
      run.result.rnd = (12345 + max repeat_ N) % 2 ^ 64 := by
  have hrun := measure_sequential_latency_run_zero repeat_ arr N clk hN hlen
  refine ⟨_, hrun, ?_, ?_, ?_, ?_, ?_, rfl⟩
  · unfold measure_sequential_latency
    rw [hrun]
    rfl
  · simp
  · simp
  · intro i hi
    simp [List.getElem?_map, List.getElem?_range hi]
  · intro x hx
    simp only [List.mem_map, List.mem_range] at hx
    obtain ⟨i, _, rfl⟩ := hx
    exact Nat.mod_lt _ (by omega)

/-- Claim C9, worked example. With `repeat = 3` on an array of five elements
both loops run five iterations over the indices `0, 1, 2, 3, 4`
(`12345 mod 5 = 0`), and the returned `rnd` is 12350. -/
theorem sequential_index_sequence_witness :
    ∃ run, measure_sequential_latency_run 3 [9, 8, 7, 6, 5] 5 0 (sampleEnv.clock 0) = some run ∧
      run.baselineIndices = [0, 1, 2, 3, 4] ∧ run.accessIndices = [0, 1, 2, 3, 4] ∧
      run.result.rnd = 12350 := by
  obtain ⟨run, hrun, _, _, _, _, _, _⟩ :=
    sequential_index_sequence 3 [9, 8, 7, 6, 5] 5 (sampleEnv.clock 0) (by decide) (by decide)
  refine ⟨run, hrun, ?_⟩
  have hval : measure_sequential_latency_run 3 [9, 8, 7, 6, 5] 5 0 (sampleEnv.clock 0) =
      some
        { result :=
            { baseline := F64.fin false 7036874417766400 (-45)
              access_time := F64.fin false 7036874417766400 (-44)
              rnd := 12350 }
          baselineIndices := [0, 1, 2, 3, 4]
          accessIndices := [0, 1, 2, 3, 4] } := by decide
  rw [hval] at hrun
  have : run = _ := (Option.some.inj hrun).symm
  subst this
  exact ⟨rfl, rfl, rfl⟩

/-- Claim C10. With `zero = 0`, on an array of (at least) `N ≥ 1` elements and
with `12345 + max repeat N < 2^64`, the access loop of
`measure_sequential_latency` runs at least `N` iterations, and in every window
of `N` consecutive iterations (starting at iteration `w`, `w + N ≤ R`) the
indices read are pairwise distinct and every index below `N` is read; so each
measurement reads every array element at least once. -/
theorem sequential_access_single_cycle (repeat_ : Nat) (arr : List Nat) (N : Nat)
    (clk : Readings) (hN : 1 ≤ N) (hlen : N ≤ arr.length)
    (hwrap : 12345 + max repeat_ N < 2 ^ 64) :
    ∃ run, measure_sequential_latency_run repeat_ arr N 0 clk = some run ∧
      N ≤ run.accessIndices.length ∧
      (∀ w, w + N ≤ max repeat_ N →
        (∀ i j, i < N → j < N → run.accessIndices[w + i]? = run.accessIndices[w + j]? → i = j) ∧
        (∀ x, x < N → ∃ i, i < N ∧ run.accessIndices[w + i]? = some x)) ∧
      (∀ x, x < N → x ∈ run.accessIndices) := by
  have hrun := measure_sequential_latency_run_zero repeat_ arr N clk hN hlen
  have hget : ∀ i, i < max repeat_ N →
      ((List.range (max repeat_ N)).map (fun i => (12345 + i) % 2 ^ 64 % N))[i]? =
        some ((12345 + i) % N) := by
    intro i hi
    rw [List.getElem?_map, List.getElem?_range hi]
    simp only [Option.map_some']
    rw [Nat.mod_eq_of_lt (a := 12345 + i) (by omega)]
  have hcover : ∀ w x, x < N → ∃ i, i < N ∧ (12345 + (w + i)) % N = x := by
    intro w x hx
    have hc : (12345 + w) % N < N := Nat.mod_lt _ (by omega)
    refine ⟨(x + N - (12345 + w) % N) % N, Nat.mod_lt _ (by omega), ?_⟩
    have e1 : 12345 + w + (x + N - (12345 + w) % N) % N ≡
        12345 + w + (x + N - (12345 + w) % N) [MOD N] :=
      Nat.ModEq.add_left _ (Nat.mod_modEq _ _)
    have e2 : 12345 + w + (x + N - (12345 + w) % N) ≡
        (12345 + w) % N + (x + N - (12345 + w) % N) [MOD N] :=
      Nat.ModEq.add_right _ (Nat.mod_modEq _ _).symm
    have e3 : (12345 + w) % N + (x + N - (12345 + w) % N) = x + N := by omega
    have e4 := e1.trans e2
    rw [e3] at e4
    rw [← Nat.add_assoc]
    have e5 : (12345 + w + (x + N - (12345 + w) % N) % N) % N = (x + N) % N := e4
    rw [e5, Nat.add_mod_right, Nat.mod_eq_of_lt hx]
  refine ⟨_, hrun, ?_, ?_, ?_⟩
  · simp
  · intro w hw
    refine ⟨?_, ?_⟩
    · intro i j hi hj hij
      show i = j
      change ((List.range (max repeat_ N)).map (fun i => (12345 + i) % 2 ^ 64 % N))[w + i]? =
        ((List.range (max repeat_ N)).map (fun i => (12345 + i) % 2 ^ 64 % N))[w + j]? at hij
      rw [hget _ (by omega), hget _ (by omega)] at hij
      have hmod : (12345 + (w + i)) % N = (12345 + (w + j)) % N := by simpa using hij
      rcases Nat.le_total i j with hle | hle
      · have hd : (12345 + (w + j) - (12345 + (w + i))) % N = 0 :=
          Nat.sub_mod_eq_zero_of_mod_eq hmod.symm
        have hd' : (j - i) % N = 0 := by
          have : 12345 + (w + j) - (12345 + (w + i)) = j - i := by omega
          rwa [this] at hd
        rw [Nat.mod_eq_of_lt (by omega)] at hd'
        omega
      · have hd : (12345 + (w + i) - (12345 + (w + j))) % N = 0 :=
          Nat.sub_mod_eq_zero_of_mod_eq hmod
        have hd' : (i - j) % N = 0 := by
          have : 12345 + (w + i) - (12345 + (w + j)) = i - j := by omega
          rwa [this] at hd
        rw [Nat.mod_eq_of_lt (by omega)] at hd'
        omega
    · intro x hx
      obtain ⟨i, hi, hix⟩ := hcover w x hx
      refine ⟨i, hi, ?_⟩
      show ((List.range (max repeat_ N)).map (fun i => (12345 + i) % 2 ^ 64 % N))[w + i]? = some x
      rw [hget _ (by omega), hix]
  · intro x hx
    obtain ⟨i, hi, hix⟩ := hcover 0 x hx
    show x ∈ (List.range (max repeat_ N)).map (fun i => (12345 + i) % 2 ^ 64 % N)
    refine List.mem_map.2 ⟨0 + i, List.mem_range.2 ?_, ?_⟩
    · have : N ≤ max repeat_ N := le_max_right _ _
      omega
    · show (12345 + (0 + i)) % 2 ^ 64 % N = x
      rw [Nat.mod_eq_of_lt (a := 12345 + (0 + i))]
      · exact hix
      · have : N ≤ max repeat_ N := le_max_right _ _
        omega

/-- Claim C10, worked example. With `repeat = 7` on an array of three elements
the access loop runs seven iterations, and each window of three consecutive
iterations reads the indices 0, 1 and 2. -/
theorem sequential_access_single_cycle_witness :
    ∃ run, measure_sequential_latency_run 7 [0, 0, 0] 3 0 (sampleEnv.clock 0) = some run ∧
      3 ≤ run.accessIndices.length ∧
      (∀ w, w + 3 ≤ max 7 3 →
        (∀ i j, i < 3 → j < 3 → run.accessIndices[w + i]? = run.accessIndices[w + j]? → i = j) ∧
        (∀ x, x < 3 → ∃ i, i < 3 ∧ run.accessIndices[w + i]? = some x)) ∧
      (∀ x, x < 3 → x ∈ run.accessIndices) :=
  sequential_access_single_cycle 7 [0, 0, 0] 3 (sampleEnv.clock 0) (by decide) (by decide)
    (by decide)

end MemoryLatency
